import Mathlib

/-!
# Verification of the `widget_state` reactive state library

This file gives a shallow embedding of the `widget_state` Python package
(leaf states, higher-order/composite states, dict states, list states,
serialization and the computed-member machinery) and proves or refutes the
frozen specification claims against it.

The base class `State` (callback registry, `notify_change`, the `with state:`
batching scope) is not among the provided source files; where its behaviour is
needed it is modelled from the spec (section 4.1 "ObservableNode") and each
such definition is marked `Modelled from the spec:`.  Everything else is
translated from the Python sources in `src/widget_state/`.

The file is organised as definitions first, then theorems.
-/

namespace WidgetState

attribute [local semireducible] Rat.mul Rat.add Rat.sub Rat.inv

/-- Runtime values held by leaf states.  Python objects that are none of the
four primitive kinds are represented opaquely by an identity number. -/
inductive PyVal where
  | int (n : ℤ)
  | float (q : ℚ)
  | str (s : String)
  | bool (b : Bool)
  | obj (ident : ℕ)
  deriving DecidableEq, Repr

/-- Whether a value is a Python `int`. -/
def PyVal.isInt : PyVal → Bool
  | .int _ => true
  | _ => false

/-- Numeric view of a Python value: Python `==` compares `bool`, `int` and
`float` by their numeric value (`True == 1`, `1 == 1.0`). -/
def PyVal.asNum : PyVal → Option ℚ
  | .int n => some (n : ℚ)
  | .float q => some q
  | .bool b => some (if b then 1 else 0)
  | _ => none

/-- Python equality `==` as used by `BasicState.__setattr__`:
numeric kinds compare numerically, strings compare by content, and plain
objects (default `object.__eq__`) compare by identity. -/
def pyEq (a b : PyVal) : Bool :=
  match a.asNum, b.asNum with
  | some x, some y => x = y
  | _, _ =>
    match a, b with
    | .str s, .str t => s = t
    | .obj i, .obj j => i = j
    | _, _ => false

/-- Round a rational to the nearest integer, ties to even — the rounding mode
of Python's builtin `round`.  (Floats are modelled as exact rationals.)
Written with `Rat.floor` and the boolean comparison `Rat.blt` so that the
kernel can evaluate it on concrete inputs. -/
def roundHalfEven (q : ℚ) : ℤ :=
  let n := q.floor
  let frac := q - (n : ℚ)
  if Rat.blt frac (1/2) then n
  else if Rat.blt (1/2) frac then n + 1
  else if n % 2 = 0 then n else n + 1

/-- `10 ^ n` on the rationals, by primitive recursion. -/
def pow10N : ℕ → ℚ
  | 0 => 1
  | n + 1 => 10 * pow10N n

/-- `10 ^ p` for an integer exponent. -/
def pow10 : ℤ → ℚ
  | .ofNat n => pow10N n
  | .negSucc n => (pow10N (n + 1))⁻¹

/-- Python `round(q, p)` on a (rational-modelled) float with `p` digits:
scale by `10 ^ p`, round half-to-even, scale back. -/
def pyRound (p : ℤ) (q : ℚ) : ℚ := (roundHalfEven (q * pow10 p) : ℚ) / pow10 p

/-- The concrete leaf classes of `basic_state.py`; used by `serialize` and by
the auto-wrapping table `BASIC_STATE_DICT`. -/
inductive LeafKind where
  | int | float | str | bool | obj
  deriving DecidableEq, Repr

/-- A `BasicState` (a leaf of the state tree), translated from
`basic_state.py`.  The callback type `κ` is a parameter because every model in
this file interprets registered callbacks differently (pure external
observers, parent-forwarding closures, computed-member recompute closures,
the list-element observer).

Fields mirror the Python attributes: `value` is the wrapped value,
`verify` is `_verify_change`, `precision` is `FloatState._precision`
(`none` for every other kind), `active` is the notification-enabled flag
`_active` of the base `State` (Modelled from the spec: section 4.1
`setNotificationsEnabled`), `callbacks` is the base `State._callbacks`
registry (Modelled from the spec: section 4.1 `register`), and `ident` is the
Python object identity of the node (used to state identity preservation). -/
structure Leaf (κ : Type) where
  ident : ℕ
  kind : LeafKind
  value : PyVal
  verify : Bool
  precision : Option ℤ
  active : Bool
  callbacks : List κ
  deriving DecidableEq, Repr

/-- `FloatState.__setattr__`: when a precision is configured, the incoming
value is rounded before it is handed to `BasicState.__setattr__`.  Python's
`round` is only ever applied to floats here (`FloatState` holds floats);
other values pass through unchanged. -/
def applyPrecision {κ : Type} (l : Leaf κ) (v : PyVal) : PyVal :=
  match l.precision, v with
  | some p, .float q => .float (pyRound p q)
  | _, _ => v

/-- `BasicState.__setattr__` on `value` (composed with the `FloatState`
override), for a value that is already bound, i.e. after `__init__`.
Returns the updated leaf together with the list of callbacks that
`notify_change` invokes, in registration order.

Modelled from the spec: `notify_change` (section 4.1 `notify`) invokes every
registered callback in order and passes the node itself, unless notifications
are disabled for the node, in which case no callback is invoked. -/
def leafSet {κ : Type} (l : Leaf κ) (v : PyVal) : Leaf κ × List κ :=
  let v := applyPrecision l v
  if l.verify && pyEq v l.value then (l, [])
  else
    let l' := { l with value := v }
    (l', if l'.active then l'.callbacks else [])

/-- Leaf construction (`BasicState.__init__` / the subclass constructors):
`self.value = value` hits the initial-assignment branch of `__setattr__`, so
the value is stored without notification — but the `FloatState` override has
already rounded it (`_precision` is set before `super().__init__`). -/
def mkLeaf {κ : Type} (ident : ℕ) (kind : LeafKind) (v : PyVal) (verify : Bool)
    (precision : Option ℤ) : Leaf κ :=
  let stub : Leaf κ :=
    { ident := ident, kind := kind, value := v, verify := verify,
      precision := precision, active := true, callbacks := [] }
  { stub with value := applyPrecision stub v }

/-- `IntState.__init__ : BasicState(value, verify_change=True)`. -/
def mkIntLeaf {κ : Type} (ident : ℕ) (n : ℤ) : Leaf κ :=
  mkLeaf ident .int (.int n) true none

/-- `FloatState.__init__`: sets `_precision`, then delegates to
`BasicState.__init__` with `verify_change=True`. -/
def mkFloatLeaf {κ : Type} (ident : ℕ) (q : ℚ) (precision : Option ℤ) : Leaf κ :=
  mkLeaf ident .float (.float q) true precision

/-- `StringState.__init__`. -/
def mkStrLeaf {κ : Type} (ident : ℕ) (s : String) : Leaf κ :=
  mkLeaf ident .str (.str s) true none

/-- `BoolState.__init__`. -/
def mkBoolLeaf {κ : Type} (ident : ℕ) (b : Bool) : Leaf κ :=
  mkLeaf ident .bool (.bool b) true none

/-- `ObjectState.__init__ : BasicState(value, verify_change=False)`. -/
def mkObjLeaf {κ : Type} (ident : ℕ) (v : PyVal) : Leaf κ :=
  mkLeaf ident .obj v false none

/-- Error kinds raised by the modelled operations (section 7 of the spec
names them; the Python code raises `AssertionError` / `NotImplementedError` /
`AttributeError` at the corresponding places). -/
inductive Err where
  | illegalRebind
  | unserializable
  | assertionFailed
  | schemaMismatch
  | unknownMember
  | notImplemented
  | attributeError
  deriving DecidableEq, Repr

/-- Serialized values: the plain primitive/mapping tree produced by
`serialize` (`types.Serializable`, restricted to the shapes the modelled
classes produce). -/
inductive SVal where
  | i (n : ℤ)
  | f (q : ℚ)
  | s (st : String)
  | b (bv : Bool)
  | dict (entries : List (String × SVal))

/-- `IntState.serialize` / `FloatState.serialize` / `StringState.serialize` /
`BoolState.serialize` assert that the held value matches the class and return
it; `BasicState.serialize` (which `ObjectState` inherits) raises
`NotImplementedError` ("Unable to serialize abstract basic state") — the
spec's `UnserializableKind`. -/
def serializeLeaf {κ : Type} (l : Leaf κ) : Except Err SVal :=
  match l.kind, l.value with
  | .int, .int n => .ok (.i n)
  | .float, .float q => .ok (.f q)
  | .str, .str s => .ok (.s s)
  | .bool, .bool b => .ok (.b b)
  | .obj, _ => .error .unserializable
  | _, _ => .error .assertionFailed

/-- `BASIC_STATE_DICT.get(type(value), ObjectState)(value)`: the
auto-wrapping table of `basic_state.py` consulted by
`HigherOrderState.__setattr__` for non-`State` values.  The lookup is by the
exact runtime type, so each primitive kind hits its row and anything else
falls back to `ObjectState`. -/
def wrapValue {κ : Type} (ident : ℕ) (v : PyVal) : Leaf κ :=
  match v with
  | .int n => mkIntLeaf ident n
  | .float q => mkFloatLeaf ident q none
  | .str s => mkStrLeaf ident s
  | .bool b => mkBoolLeaf ident b
  | .obj _ => mkObjLeaf ident v

/-- A `FloatState(0.1, precision=1)` with one registered callback, used as a
concrete instance in the statements about equality suppression. -/
def floatTenthLeaf : Leaf ℕ :=
  { (mkFloatLeaf 0 (1/10) (some 1) : Leaf ℕ) with callbacks := [0] }

/-- An `IntState(5)` with one registered callback. -/
def intFiveLeaf : Leaf ℕ :=
  { (mkIntLeaf 0 5 : Leaf ℕ) with callbacks := [3] }

/-! ### Model of `list_state.py` (`ListState`, `_ElementObserver`) -/

/-- Callbacks registered on a list *element*: either a user callback (a pure
external observer, identified by a number) or the list's `_ElementObserver`
instance, registered by `append`/`insert`/`extend`. -/
inductive ElemCb where
  | external (k : ℕ)
  | elemObs
  deriving DecidableEq, Repr

/-- The dispatch channel through which a callback invocation happened:
the list's own aggregate `notify_change`, the `_ElementObserver` fan-out,
a callback registered directly on an element, or the immediate `trigger`
invocation of `on_change`. -/
inductive Chan where
  | aggregate
  | elementWise
  | elemOwn
  | immediate
  deriving DecidableEq, Repr

/-- The argument a callback receives. -/
inductive CbArg where
  | theList
  | theElem (ident : ℕ)
  deriving DecidableEq, Repr

/-- One callback invocation: which callback, via which channel, and which
state object it received. -/
structure Invocation where
  cb : ℕ
  chan : Chan
  arg : CbArg
  deriving DecidableEq, Repr

/-- A `ListState`: the backing `_list` (elements modelled as leaves, which is
what the claims mutate), the `_ElementObserver._callbacks` registry, the
list's own `State._callbacks` registry and `_active` flag (the latter two
Modelled from the spec: section 4.1). -/
structure ListSt where
  elems : List (Leaf ElemCb)
  elemObsCallbacks : List ℕ
  callbacks : List ℕ
  active : Bool
  deriving DecidableEq, Repr

/-- `ListState()` / `ListState([])`. -/
def mkListSt : ListSt :=
  { elems := [], elemObsCallbacks := [], callbacks := [], active := true }

/-- The list's own `notify_change` (Modelled from the spec: section 4.1
`notify`): invokes every registered callback in order, passing the list. -/
def lsNotify (ls : ListSt) : List Invocation :=
  if ls.active then ls.callbacks.map (fun k => ⟨k, .aggregate, .theList⟩) else []

/-- `_ElementObserver.__call__`: fans out to the element-wise callbacks,
passing `self._list_state` (the list, not the element that changed). -/
def elemObsCall (ls : ListSt) : List Invocation :=
  ls.elemObsCallbacks.map (fun k => ⟨k, .elementWise, .theList⟩)

/-- `ListState.on_change(callback, trigger, element_wise)`: if
`element_wise`, append the callback to `_elem_obs._callbacks`; in every case
delegate to `State.on_change`, which appends it to `_callbacks` and, when
`trigger`, invokes it once with the node itself (Modelled from the spec:
section 4.1 `register`). -/
def lsOnChange (ls : ListSt) (cb : ℕ) (trigger elementWise : Bool) :
    ListSt × List Invocation :=
  let ls1 :=
    if elementWise then
      { ls with elemObsCallbacks := ls.elemObsCallbacks ++ [cb] }
    else ls
  let ls2 := { ls1 with callbacks := ls1.callbacks ++ [cb] }
  (ls2, if trigger then [⟨cb, .immediate, .theList⟩] else [])

/-- `ListState.append(elem)`: append to `_list`, set the element's parent,
register the `_ElementObserver` on the element, then `notify_change`. -/
def lsAppend (ls : ListSt) (elem : Leaf ElemCb) : ListSt × List Invocation :=
  let elem2 := { elem with callbacks := elem.callbacks ++ [.elemObs] }
  let ls1 := { ls with elems := ls.elems ++ [elem2] }
  (ls1, lsNotify ls1)

/-- Mutating the value of the element at index `i` (`ls[i].value = v`): the
element's `BasicState.__setattr__` runs and, if it notifies, its callbacks
are invoked in order — user callbacks on the element receive the element,
and the `_ElementObserver` dispatches to the element-wise channel.  The
list's own `notify_change` is not involved. -/
def lsSetElemValue (ls : ListSt) (i : ℕ) (v : PyVal) :
    Option (ListSt × List Invocation) :=
  match ls.elems[i]? with
  | none => none
  | some l =>
    let p := leafSet l v
    let ls1 := { ls with elems := ls.elems.set i p.1 }
    let invs := p.2.foldl (fun acc cb =>
      acc ++ match cb with
        | .external k => [⟨k, .elemOwn, .theElem p.1.ident⟩]
        | .elemObs => elemObsCall ls1) []
    some (ls1, invs)

/-- Concrete list-state examples used by the witnesses: an empty list with
aggregate callback `1` and element-wise callback `2`. -/
def exListA : ListSt :=
  { elems := []
    elemObsCallbacks := [2]
    callbacks := [1]
    active := true }

/-- An `IntState(5)` element carrying a direct callback `7` and the list's
`_ElementObserver` (as `append` leaves it). -/
def exElemB : Leaf ElemCb :=
  { (mkIntLeaf 0 5 : Leaf ElemCb) with callbacks := [ElemCb.external 7, ElemCb.elemObs] }

/-- `exListA` with `exElemB` as its only element. -/
def exListB : ListSt :=
  { elems := [exElemB]
    elemObsCallbacks := [2]
    callbacks := [1]
    active := true }

/-! ### Model of `dict_state.py` (`DictState.set` inside a batch scope) -/

/-- Callbacks on a dict-state member leaf: a user callback (pure external
observer) or the composite's forwarding callback
`lambda _: self.notify_change()` installed by `HigherOrderState.__setattr__`. -/
inductive DCb where
  | external (k : ℕ)
  | forward
  deriving DecidableEq, Repr

/-- A `DictState`: `_labels` in insertion order paired with the member
leaves, plus the composite's own `State` bookkeeping.

Modelled from the spec: the base `State` fields — callback registry,
notification-enabled flag, batch depth and pending flag (section 3
"ObservableNode", section 4.1) — come from the missing `state.py`; the spec
offers two exit policies and the one matching "batched assignment always
yields exactly one notification" (notify unconditionally when the batch
closes) is adopted, consistent with the repository's own
`test_higher_state.py::test_deserialize` expecting one notification. -/
structure DictSt where
  members : List (String × Leaf DCb)
  callbacks : List ℕ
  active : Bool
  depth : ℕ
  pending : Bool
  deriving DecidableEq, Repr

/-- The composite's `notify_change` (Modelled from the spec: section 4.1
`notify`): disabled → no-op; inside a batch → mark pending; otherwise fire
one notification event (every registered callback invoked once).  Returns
the state and the number of notification events fired on the composite. -/
def dsNotify (ds : DictSt) : DictSt × ℕ :=
  if ds.active = false then (ds, 0)
  else if 0 < ds.depth then ({ ds with pending := true }, 0)
  else (ds, 1)

/-- Leaving the `with self:` scope (Modelled from the spec: section 4.1
`exitBatch`, with the unconditional-emission policy): decrement the depth
and, back at depth zero, clear the pending flag and notify once. -/
def dsExit (ds : DictSt) : DictSt × ℕ :=
  let ds1 := { ds with depth := ds.depth - 1 }
  if ds1.depth = 0 then dsNotify { ds1 with pending := false }
  else (ds1, 0)

/-- One iteration of `DictState.set`'s loop: `self[i].value = arg`.  The
member's `BasicState.__setattr__` runs; if it notifies, the leaf's callbacks
run in order — user callbacks are pure, and each `forward` invokes the
composite's `notify_change`. -/
def dsAssignOne (ds : DictSt) (i : ℕ) (v : PyVal) : DictSt × ℕ :=
  match ds.members[i]? with
  | none => (ds, 0)
  | some m =>
    let p := leafSet m.2 v
    let ds1 := { ds with members := ds.members.set i (m.1, p.1) }
    p.2.foldl (fun acc cb =>
      match cb with
      | .external _ => acc
      | .forward => let t := dsNotify acc.1; (t.1, acc.2 + t.2)) (ds1, 0)

/-- `for i, arg in enumerate(args): self[i].value = arg`, starting at
index `i`. -/
def dsSetLoopFrom (ds : DictSt) (i : ℕ) : List PyVal → DictSt × ℕ
  | [] => (ds, 0)
  | v :: vs =>
    let r := dsAssignOne ds i v
    let r2 := dsSetLoopFrom r.1 (i + 1) vs
    (r2.1, r.2 + r2.2)

/-- `DictState.set(*args)`: assert the arity, then reassign every member
value inside the composite's batch scope (`with self:`), so the composite
notifies only on exit.  Returns the resulting state and the number of
notification events fired on the composite. -/
def dsSet (ds : DictSt) (args : List PyVal) : Option (DictSt × ℕ) :=
  if args.length = ds.members.length then
    let ds1 := { ds with depth := ds.depth + 1 }
    let r := dsSetLoopFrom ds1 0 args
    let e := dsExit r.1
    some (e.1, r.2 + e.2)
  else none

/-- `DictState.values()`: the member values in declaration order. -/
def dsValues (ds : DictSt) : List PyVal := ds.members.map (fun m => m.2.value)

/-- The spec's example composite `V{x:10, y:20, z:30}`: three `IntState`
members each carrying the composite's forwarding callback, one external
callback on the composite. -/
def exVec : DictSt :=
  { members := [("x", { (mkIntLeaf 0 10 : Leaf DCb) with callbacks := [DCb.forward] }),
      ("y", { (mkIntLeaf 1 20 : Leaf DCb) with callbacks := [DCb.forward] }),
      ("z", { (mkIntLeaf 2 30 : Leaf DCb) with callbacks := [DCb.forward] })]
    callbacks := [0]
    active := true
    depth := 0
    pending := false }

/-- A `DictState` with a single quantizing member `FloatState(0.1,
precision=1)` carrying the composite's forwarding callback — the instance on
which `set`'s literal value exactness fails. -/
def exVecF : DictSt :=
  { members := [("x",
      { (mkFloatLeaf 0 (1/10) (some 1) : Leaf DCb) with callbacks := [DCb.forward] })]
    callbacks := [0]
    active := true
    depth := 0
    pending := false }

/-! ### Model of composite serialization (`HigherOrderState.serialize` /
`HigherOrderState.deserialize`) over trees of leaves and nested composites -/

/-- The `State` bookkeeping of one composite node (Modelled from the spec:
section 3 "ObservableNode" / section 4.1, as for `DictSt`; the forwarding
callback a parent installs on this composite is implicit in the tree
structure). -/
structure CompData where
  callbacks : List ℕ
  active : Bool
  depth : ℕ
  pending : Bool
  deriving DecidableEq, Repr

mutual
/-- A state tree: a `BasicState` leaf (with pure external callbacks) or a
`HigherOrderState` with its public members in insertion order. -/
inductive Node where
  | leaf : Leaf ℕ → Node
  | comp : CompData → Members → Node

/-- The public entries of a composite's `__dict__`, in insertion order. -/
inductive Members where
  | nil : Members
  | cons : String → Node → Members → Members
end

/-- `getattr(self, key)` restricted to public members. -/
def lookupMember : Members → String → Option Node
  | .nil, _ => none
  | .cons k n rest, key => if k = key then some n else lookupMember rest key

/-- In-place mutation of the member bound to `key`. -/
def updateMember : Members → String → Node → Members
  | .nil, _, _ => .nil
  | .cons k n rest, key, nd =>
    if k = key then .cons k nd rest else .cons k n (updateMember rest key nd)

/-- The member names in insertion order (`_labels` / `dict()` keys). -/
def memberNames : Members → List String
  | .nil => []
  | .cons k _ rest => k :: memberNames rest

mutual
/-- `serialize`: for a leaf, the subclass `serialize` (`serializeLeaf`); for
a composite, the mapping from each public member name to `member.serialize()`
with members raising `NotImplementedError` silently omitted — any other
error propagates. -/
def serializeNode : Node → Except Err SVal
  | .leaf l => serializeLeaf l
  | .comp _ ms => (serializeMembers ms).map SVal.dict

/-- The `for key, value in self.dict().items()` aggregation loop of
`HigherOrderState.serialize` with its `except NotImplementedError: pass`. -/
def serializeMembers : Members → Except Err (List (String × SVal))
  | .nil => .ok []
  | .cons k n rest =>
    match serializeNode n with
    | .ok v =>
      match serializeMembers rest with
      | .ok es => .ok ((k, v) :: es)
      | .error e => .error e
    | .error .unserializable => serializeMembers rest
    | .error e => .error e
end

/-- The primitive stored back into a leaf by `attr.value = value` during
deserialization.  The `dict` case is unreachable in the round trips modelled
here (Python would store the dict object itself); it is mapped to an opaque
object. -/
def svalToPy : SVal → PyVal
  | .i n => .int n
  | .f q => .float q
  | .s st => .str st
  | .b bv => .bool bv
  | .dict _ => .obj 0

/-- The leaf branch of `HigherOrderState.deserialize`:
`attr._active = False; attr.value = value; attr._active = True` — the leaf's
own notification is suppressed around the assignment. -/
def inlineLeafAssign (l : Leaf ℕ) (v : SVal) : Leaf ℕ :=
  { (leafSet { l with active := false } (svalToPy v)).1 with active := true }

mutual
/-- `HigherOrderState.deserialize(_dict)`: assert the input is a mapping,
then, inside the composite's batch scope (`with self:`), set each leaf
member's value with its notifications suppressed and recursively deserialize
composite members; the batch exit notifies the composite once.  Returns the
updated node, whether its notification fired (and hence was forwarded to its
parent), and the number of notification events fired on this node.

Modelled from the spec: the batch mechanics (section 4.1) as for `DictSt`;
a notification arriving while the batch is open only marks the pending flag.
(Python's context manager would also run the batch exit when an error
propagates out of the loop; no modelled run errors, so that unwind path is
not represented.) -/
def deserializeNode : Node → SVal → Except Err (Node × Bool × ℕ)
  | .leaf _, _ => .error .notImplemented
  | .comp c ms, v =>
    match v with
    | .dict entries =>
      match deserializeEntries ms entries with
      | .error e => .error e
      | .ok (ms2, fired) =>
        let c1 : CompData := { c with depth := c.depth + 1 }
        let c2 := if fired && c1.active then { c1 with pending := true } else c1
        let c3 : CompData := { c2 with depth := c2.depth - 1 }
        if c3.depth = 0 then
          let c4 : CompData := { c3 with pending := false }
          if c4.active then .ok (.comp c4 ms2, true, 1)
          else .ok (.comp c4 ms2, false, 0)
        else .ok (.comp c3 ms2, false, 0)
    | _ => .error .schemaMismatch
termination_by _ v => sizeOf v
decreasing_by all_goals (simp_wf; try omega)

/-- The `for key, value in _dict.items()` loop of `deserialize`: look up the
existing member (`AttributeError` if absent — deserialization never creates
members), assign suppressed for leaves, recurse for composites.  The boolean
records whether any child notification fired up to this composite. -/
def deserializeEntries : Members → List (String × SVal) → Except Err (Members × Bool)
  | ms, [] => .ok (ms, false)
  | ms, (k, v) :: rest =>
    match lookupMember ms k with
    | none => .error .attributeError
    | some (.leaf l) =>
      deserializeEntries (updateMember ms k (.leaf (inlineLeafAssign l v))) rest
    | some (.comp cc cms) =>
      match deserializeNode (.comp cc cms) v with
      | .error e => .error e
      | .ok (nd, fired, _) =>
        match deserializeEntries (updateMember ms k nd) rest with
        | .error e => .error e
        | .ok (ms2, f2) => .ok (ms2, fired || f2)
termination_by _ es => sizeOf es
decreasing_by all_goals (simp_wf; try omega)
end

/-- Kind/value agreement of a leaf (the subclass `serialize` asserts it). -/
def kindMatches {κ : Type} (l : Leaf κ) : Bool :=
  match l.kind, l.value with
  | .int, .int _ => true
  | .float, .float _ => true
  | .str, .str _ => true
  | .bool, .bool _ => true
  | .obj, _ => true
  | _, _ => false

/-- Stored float values of a precision-configured leaf lie on the rounding
grid (every reachable `FloatState` value was rounded when stored). -/
def gridOk {κ : Type} (l : Leaf κ) : Bool :=
  match l.precision, l.value with
  | some p, .float q => pyRound p q == q
  | some _, _ => false
  | none, _ => true

mutual
/-- Well-formedness of a reachable, idle state tree: notifications enabled,
no open batch, nothing pending, kinds matching values, rounded floats on the
grid, and distinct member names. -/
def wfNode : Node → Bool
  | .leaf l => l.active && kindMatches l && gridOk l
  | .comp c ms =>
    c.active && (c.depth == 0) && !c.pending
      && decide (memberNames ms).Nodup && wfMembers ms

def wfMembers : Members → Bool
  | .nil => true
  | .cons _ n rest => wfNode n && wfMembers rest
end

/-- What a successful round trip requires of one node: a leaf is unchanged
by the suppressed re-assignment of its serialized value; a composite
deserializes its own serialization to itself with exactly one notification. -/
def nodeRoundTrip : Node → SVal → Prop
  | .leaf l, v => inlineLeafAssign l v = l
  | .comp c ms, v => deserializeNode (.comp c ms) v = .ok (.comp c ms, true, 1)

/-- A concrete tree for the witnesses: members `a: IntState(5)`,
`o: ObjectState(<object>)`, `inner: {b: StringState("hi"), c: BoolState(True)}`,
`f: FloatState(0.5, precision=1)`. -/
def exInner : Node :=
  Node.comp { callbacks := [4], active := true, depth := 0, pending := false }
    (Members.cons "b" (Node.leaf (mkStrLeaf 2 "hi"))
      (Members.cons "c" (Node.leaf (mkBoolLeaf 3 true)) Members.nil))

/-- The members of the witness root composite. -/
def exMembers : Members :=
  Members.cons "a" (Node.leaf (mkIntLeaf 0 5))
    (Members.cons "o" (Node.leaf (mkObjLeaf 1 (.obj 77)))
      (Members.cons "inner" exInner
        (Members.cons "f" (Node.leaf (mkFloatLeaf 5 (1/2) (some 1))) Members.nil)))

/-- The `State` bookkeeping of the witness root composite. -/
def exData : CompData :=
  { callbacks := [9], active := true, depth := 0, pending := false }

/-- The witness root composite. -/
def exTree : Node := Node.comp exData exMembers

/-! ### Model of `higher_order_state.py` (`HigherOrderState` with one
declared computed member) -/

/-- Callbacks on a member leaf of a higher-order state: a user callback, the
composite's forwarding callback, or the recompute callback
`lambda _, _name=...: self._update_computed_state(_name)` registered on each
parameter at activation.  With a single declared computed member the target
name of the recompute callback is implicit. -/
inductive CCb where
  | external (k : ℕ)
  | forward
  | recompute
  deriving DecidableEq, Repr

/-- A `HigherOrderState` with one computed member declared via `@computed`:
`cname` is the computed member's name, `params` its parameter names and `f`
its recompute function on the parameter values (the Python function builds a
fresh leaf from the parameter states; only its value matters here, and the
built leaf has `verify_change=True` and no precision).  `members` is the
public `__dict__` in insertion order and `nextId` a fresh-object counter
modelling Python object identities.  The composite's own callback list and
the `_parent` back-references carry no state effects in this model (external
observers are pure) and are omitted. -/
structure HOS where
  members : List (String × Leaf CCb)
  cname : String
  params : List String
  f : List PyVal → PyVal
  nextId : ℕ

/-- `HigherOrderState.__init__`: no members yet; the computed registry holds
the one declared descriptor. -/
def initHOS (cname : String) (params : List String) (f : List PyVal → PyVal) : HOS :=
  { members := [], cname := cname, params := params, f := f, nextId := 0 }

/-- The public member names, in insertion order. -/
def hosNames (s : HOS) : List String := s.members.map Prod.fst

/-- First-match lookup in the member list (`self.__dict__[name]`). -/
def lookupLeaf : List (String × Leaf CCb) → String → Option (Leaf CCb)
  | [], _ => none
  | m :: rest, n => if m.1 = n then some m.2 else lookupLeaf rest n

/-- In-place replacement of the member bound to a name. -/
def setLeafIn : List (String × Leaf CCb) → String → Leaf CCb → List (String × Leaf CCb)
  | [], _, _ => []
  | m :: rest, n, l => if m.1 = n then (m.1, l) :: rest else m :: setLeafIn rest n l

/-- `param.on_change(... self._update_computed_state(name))`: append the
recompute callback to the parameter's callback registry. -/
def addCbIn : List (String × Leaf CCb) → String → List (String × Leaf CCb)
  | [], _ => []
  | m :: rest, n =>
    if m.1 = n then (m.1, { m.2 with callbacks := m.2.callbacks ++ [CCb.recompute] }) :: rest
    else m :: addCbIn rest n

/-- `hasattr(self, n)`: a public member, or the declared computed method
found on the class. -/
def hasattrB (s : HOS) (n : String) : Bool :=
  (lookupLeaf s.members n).isSome || n = s.cname

/-- `callable(getattr(self, n))`: `getattr` resolves the instance `__dict__`
first (states are not callable); the bound computed method is callable. -/
def callableB (s : HOS) (n : String) : Bool :=
  (lookupLeaf s.members n).isNone && n = s.cname

/-- The current parameter values
(`list(map(lambda p: getattr(self, p), func.params))` read at recompute
time); the default is unreachable because a parameter is read only while it
is bound. -/
def paramVals (s : HOS) : List PyVal :=
  s.params.map (fun p => ((lookupLeaf s.members p).map Leaf.value).getD (.int 0))

/-- The leaf class the computed function's fresh result belongs to, per the
value it holds. -/
def kindOf : PyVal → LeafKind
  | .int _ => .int
  | .float _ => .float
  | .str _ => .str
  | .bool _ => .bool
  | .obj _ => .obj

/-- The binding stage of `HigherOrderState.__setattr__` for a value that is
already a `State`: assert that the name is unbound or resolves to a callable
(`AssertionError` "Reassignment of value ..." otherwise — the spec's
IllegalRebind), bind it, set the parent back-reference, and register the
composite's forwarding callback on it. -/
def bindAttr (s : HOS) (name : String) (l : Leaf CCb) : Except Err HOS :=
  if hasattrB s name && !callableB s name then .error .illegalRebind
  else
    .ok { s with members :=
      s.members ++ [(name, { l with callbacks := l.callbacks ++ [CCb.forward] })] }

/-- The computed-member activation loop at the end of `__setattr__`, for the
single declared descriptor: skip if already initialized, if a parameter name
is not yet available, or if a parameter resolves to the (callable) method
stub rather than a `State`; otherwise register the recompute callback on
every parameter and bind `func(*params)` via the inner `__setattr__` (whose
own activation loop then skips the now-initialized member). -/
def tryActivate (s : HOS) : HOS :=
  if (lookupLeaf s.members s.cname).isSome then s
  else if !(s.params.all (fun p => hasattrB s p)) then s
  else if !(s.params.all (fun p => (lookupLeaf s.members p).isSome)) then s
  else
    let ms1 := s.params.foldl (fun acc p => addCbIn acc p) s.members
    let s1 : HOS := { s with members := ms1 }
    let vals := paramVals s1
    let newLeaf : Leaf CCb := mkLeaf s1.nextId (kindOf (s.f vals)) (s.f vals) true none
    match bindAttr { s1 with nextId := s1.nextId + 1 } s.cname newLeaf with
    | .ok s2 => s2
    | .error _ => s1

/-- `__setattr__` with a non-`State` value: wrap it via `BASIC_STATE_DICT`,
bind, then run the activation loop. -/
def setattrRaw (s : HOS) (name : String) (v : PyVal) : Except Err HOS :=
  let l : Leaf CCb := wrapValue s.nextId v
  (bindAttr { s with nextId := s.nextId + 1 } name l).map tryActivate

/-- `__setattr__` with a value that is already a `State` instance. -/
def setattrState (s : HOS) (name : String) (l : Leaf CCb) : Except Err HOS :=
  (bindAttr s name l).map tryActivate

/-- `HigherOrderState._update_computed_state`: rebuild `func(*params)` from
the current parameter states and copy the resulting value into the existing
computed node (Modelled from the spec: the leaf-level identity-preserving
value copy `copy_from`, section 4.3 step 5 — `basic_state.py` as provided
does not carry `copy_from`).  The computed leaf's own notification forwards
to the composite, which has no state effect here; its callback list never
contains a recompute callback (those are registered only on parameters). -/
def updateComputed (s : HOS) : HOS :=
  match lookupLeaf s.members s.cname with
  | none => s
  | some t =>
    let t2 := (leafSet t (s.f (paramVals s))).1
    { s with members := setLeafIn s.members s.cname t2 }

/-- Mutating a member's value (`s.name.value = v`): the leaf's
`__setattr__` runs; if it notifies, its callbacks run in order — user
callbacks and the composite forward are pure, each recompute callback runs
`_update_computed_state`. -/
def setMemberValue (s : HOS) (name : String) (v : PyVal) : Except Err HOS :=
  match lookupLeaf s.members name with
  | none => .error .attributeError
  | some l =>
    let r := leafSet l v
    let s1 : HOS := { s with members := setLeafIn s.members name r.1 }
    .ok (r.2.foldl (fun acc cb =>
      match cb with
      | CCb.recompute => updateComputed acc
      | _ => acc) s1)

/-- The operations the claims quantify over: binding a fresh attribute with
a plain value, and mutating a bound member's value. -/
inductive HOp where
  | bind (name : String) (v : PyVal)
  | setVal (name : String) (v : PyVal)

/-- The attribute a step touches. -/
def hopName : HOp → String
  | .bind n _ => n
  | .setVal n _ => n

/-- One step. -/
def stepHOS (s : HOS) : HOp → Except Err HOS
  | .bind n v => setattrRaw s n v
  | .setVal n v => setMemberValue s n v

/-- A run from a state through a list of operations. -/
def runHOS : HOS → List HOp → Except Err HOS
  | s, [] => .ok s
  | s, op :: ops =>
    match stepHOS s op with
    | .ok s2 => runHOS s2 ops
    | .error e => .error e

/-- Sum of the integer values among the parameters — the concrete recompute
function of the witnesses (like the `Sum` example state of the repository's
tests). -/
def sumInts (vals : List PyVal) : PyVal :=
  .int (vals.foldl (fun acc v => match v with | .int n => acc + n | _ => acc) 0)

/-- An empty composite declaring computed member `c` over parameters
`a`, `b`. -/
def exHOS0 : HOS := initHOS "c" ["a", "b"] sumInts

/-- `name in self.__dict__` for the computed member's name — the
already-initialized test the activation loop performs first. -/
def activated (s : HOS) : Bool := (lookupLeaf s.members s.cname).isSome

/-- Every parameter name of the declared computed member is bound to a
state. -/
def allParamsBound (s : HOS) : Bool :=
  s.params.all (fun p => (lookupLeaf s.members p).isSome)

/-- The object identity of the node bound to the computed member's name, if
any. -/
def computedIdent (s : HOS) : Option ℕ :=
  (lookupLeaf s.members s.cname).map Leaf.ident

/-- Invariant of a higher-order state reachable by attribute bindings and
member-value mutations that never target the computed member's name: every
member node notifies (is `_active`), the computed member is initialized
exactly when all its parameters are bound, an activated computed name is not
its own parameter, and the computed node — built by the activation loop with
`verify_change=True` and no quantization — holds a value `==`-equal to the
recompute function applied to the current parameter values, with the
recompute callback registered on every parameter. -/
def InvHOS (s : HOS) : Prop :=
  (∀ n l, lookupLeaf s.members n = some l → l.active = true) ∧
  activated s = allParamsBound s ∧
  (activated s = true → s.cname ∉ s.params) ∧
  (∀ t, lookupLeaf s.members s.cname = some t →
    t.verify = true ∧ t.precision = none ∧
    pyEq t.value (s.f (paramVals s)) = true ∧
    (∀ p, p ∈ s.params → ∃ lp, lookupLeaf s.members p = some lp ∧
      CCb.recompute ∈ lp.callbacks))

/-- The node bound to `x` after `exHOS0.x = IntState(5)`: the very same
`IntState` instance, now carrying the composite's forwarding callback. -/
def exBoundLeaf : Leaf CCb :=
  { (mkIntLeaf 1 5 : Leaf CCb) with callbacks := [CCb.forward] }

/-- `exHOS0` after binding member `x` to an `IntState(5)` instance. -/
def exBound : HOS :=
  match setattrState exHOS0 "x" (mkIntLeaf 1 5) with
  | .ok s => s
  | .error _ => exHOS0

/-- The C1 witness run: bind parameter `a`, an unrelated member `x`, then
parameter `b` (activating `c`), then mutate `a`. -/
def exOps : List HOp :=
  [HOp.bind "a" (.int 1), HOp.bind "x" (.str "s"), HOp.bind "b" (.int 2),
   HOp.setVal "a" (.int 5)]

/-- The state the C1 witness run ends in. -/
def exHOSN : HOS :=
  match runHOS exHOS0 exOps with
  | .ok s => s
  | .error _ => exHOS0

/-- The activation branch of `tryActivate` written out: register the
recompute callback on every parameter, then bind the fresh computed node
(with the composite's forwarding callback, as the successful `bindAttr`
does). `tryActivate` agrees with it whenever its three guards pass. -/
def activateHOS (s : HOS) : HOS :=
  let ms1 := s.params.foldl (fun acc p => addCbIn acc p) s.members
  let s1 : HOS := { s with members := ms1 }
  let vals := paramVals s1
  let newLeaf : Leaf CCb := mkLeaf s1.nextId (kindOf (s.f vals)) (s.f vals) true none
  { s1 with nextId := s1.nextId + 1, members :=
      ms1 ++ [(s.cname, { newLeaf with callbacks := newLeaf.callbacks ++ [CCb.forward] })] }

/-! ## Theorems -/

theorem pyEq_refl (a : PyVal) : pyEq a a = true := by
  cases a <;> simp [pyEq, PyVal.asNum]

theorem pyEq_int_iff (m n : ℤ) : pyEq (.int m) (.int n) = true ↔ m = n := by
  simp [pyEq, PyVal.asNum]

theorem pyEq_float_iff (x y : ℚ) : pyEq (.float x) (.float y) = true ↔ x = y := by
  simp [pyEq, PyVal.asNum]

theorem floor_intCast_rat (m : ℤ) : ((m : ℚ)).floor = m := by
  simp [Rat.floor]

theorem roundHalfEven_intCast (m : ℤ) : roundHalfEven (m : ℚ) = m := by
  unfold roundHalfEven
  simp only [floor_intCast_rat, sub_self]
  rw [if_pos (by decide)]

theorem pow10N_ne_zero (n : ℕ) : pow10N n ≠ 0 := by
  induction n with
  | zero => norm_num [pow10N]
  | succ k ih => simp [pow10N, ih]

theorem pow10_ne_zero (p : ℤ) : pow10 p ≠ 0 := by
  cases p with
  | ofNat n => exact pow10N_ne_zero n
  | negSucc n => simpa [pow10] using pow10N_ne_zero (n + 1)

/-- Rounding an already-rounded value is the identity; used for the
serialization round trip of `FloatState`s with a configured precision. -/
theorem pyRound_idem (p : ℤ) (q : ℚ) : pyRound p (pyRound p q) = pyRound p q := by
  unfold pyRound
  rw [div_mul_cancel₀ _ (pow10_ne_zero p), roundHalfEven_intCast]

/-! ### Claims C3 and C7: leaf assignment, equality suppression, rounding -/

/-- C3 (counterexample).  The claim states that for every leaf with
`verify_change = True`, assigning a value *different from the current value*
stores exactly the new value and invokes each registered callback exactly
once.  `FloatState` has `verify_change = True`, yet with a configured
precision the incoming value is rounded first: for a `FloatState` holding
`0.1` with precision `1`, assigning `0.12` (which differs from `0.1`) is
suppressed — nothing is stored and no callback is invoked. -/
theorem claim3_counterexample :
    floatTenthLeaf.verify = true ∧
    pyEq (.float (12/100)) floatTenthLeaf.value = false ∧
    leafSet floatTenthLeaf (.float (12/100)) = (floatTenthLeaf, []) := by
  refine ⟨by decide, by decide, by decide⟩

/-- C3 (amended).  For every leaf state with equality-based change
verification (`verify_change = True`, notifications enabled): assigning a
value whose *transformed* form (rounded by the configured precision, if any)
is `==`-equal to the current value performs no mutation and invokes no
registered callback; assigning a value whose transformed form differs from
the current value stores exactly the transformed value and invokes each
registered callback exactly once, in registration order. -/
theorem claim3_equality_suppression {κ : Type} (l : Leaf κ) (v : PyVal)
    (hv : l.verify = true) (ha : l.active = true) :
    (pyEq (applyPrecision l v) l.value = true → leafSet l v = (l, [])) ∧
    (pyEq (applyPrecision l v) l.value = false →
      leafSet l v = ({ l with value := applyPrecision l v }, l.callbacks)) := by
  unfold leafSet
  constructor
  · intro h
    simp [hv, h]
  · intro h
    simp [hv, h, ha]

/-- Witness for C3 (amended): an `IntState` holding `5` with one registered
callback; assigning `7` stores `7` and invokes the callback once. -/
theorem claim3_equality_suppression_witness :
    leafSet intFiveLeaf (.int 7)
      = ({ intFiveLeaf with value := .int 7 }, [3]) :=
  (claim3_equality_suppression intFiveLeaf (.int 7) (by decide) (by decide)).2
    (by decide)

/-- C7.  For every `FloatState` constructed with a fixed precision (and
`verify_change = True`, notifications enabled), an assigned value is first
rounded to that precision and only then compared with the stored value: if
the rounded value is `==`-equal to the stored value the assignment performs
no mutation and no notification, and otherwise exactly the rounded value is
stored and each registered callback is invoked exactly once. -/
theorem claim7_round_before_compare {κ : Type} (l : Leaf κ) (p : ℤ) (v : ℚ)
    (hp : l.precision = some p) (hv : l.verify = true) (ha : l.active = true) :
    (pyEq (.float (pyRound p v)) l.value = true → leafSet l (.float v) = (l, [])) ∧
    (pyEq (.float (pyRound p v)) l.value = false →
      leafSet l (.float v) = ({ l with value := .float (pyRound p v) }, l.callbacks)) := by
  have happ : applyPrecision l (.float v) = .float (pyRound p v) := by
    unfold applyPrecision
    rw [hp]
  unfold leafSet
  rw [happ]
  constructor
  · intro h
    simp [hv, h]
  · intro h
    simp [hv, h, ha]

/-- Witness for C7: a `FloatState` holding `0.1` with precision `1` and one
registered callback; assigning `0.12` rounds to `0.1 == 0.1` and is fully
suppressed. -/
theorem claim7_round_before_compare_witness :
    leafSet floatTenthLeaf (.float (12/100)) = (floatTenthLeaf, []) :=
  (claim7_round_before_compare floatTenthLeaf 1 (12/100)
    (by decide) (by decide) (by decide)).1 (by decide)

/-! ### Claim C2: batched `DictState.set` -/

theorem dsNotifyFold_fields (cbs : List DCb) (s : DictSt) (c : ℕ)
    (hd : 0 < s.depth) :
    (cbs.foldl (fun acc cb =>
        match cb with
        | DCb.external _ => acc
        | DCb.forward => let t := dsNotify acc.1; (t.1, acc.2 + t.2)) (s, c)).1.members
        = s.members ∧
    (cbs.foldl (fun acc cb =>
        match cb with
        | DCb.external _ => acc
        | DCb.forward => let t := dsNotify acc.1; (t.1, acc.2 + t.2)) (s, c)).1.active
        = s.active ∧
    (cbs.foldl (fun acc cb =>
        match cb with
        | DCb.external _ => acc
        | DCb.forward => let t := dsNotify acc.1; (t.1, acc.2 + t.2)) (s, c)).1.depth
        = s.depth ∧
    (cbs.foldl (fun acc cb =>
        match cb with
        | DCb.external _ => acc
        | DCb.forward => let t := dsNotify acc.1; (t.1, acc.2 + t.2)) (s, c)).1.callbacks
        = s.callbacks ∧
    (cbs.foldl (fun acc cb =>
        match cb with
        | DCb.external _ => acc
        | DCb.forward => let t := dsNotify acc.1; (t.1, acc.2 + t.2)) (s, c)).2 = c := by
  induction cbs generalizing s c with
  | nil => exact ⟨rfl, rfl, rfl, rfl, rfl⟩
  | cons cb rest ih =>
    cases cb with
    | external k => simpa using ih s c hd
    | forward =>
      by_cases ha : s.active = false
      · have hn : dsNotify s = (s, 0) := by simp [dsNotify, ha]
        simpa [hn] using ih s (c + 0) hd
      · have hn : dsNotify s = ({ s with pending := true }, 0) := by
          simp [dsNotify, ha, hd]
        simpa [hn] using ih { s with pending := true } (c + 0) hd

theorem isInt_exists {v : PyVal} (h : v.isInt = true) : ∃ n, v = PyVal.int n := by
  cases v with
  | int n => exact ⟨n, rfl⟩
  | float q => simp [PyVal.isInt] at h
  | str s => simp [PyVal.isInt] at h
  | bool b => simp [PyVal.isInt] at h
  | obj o => simp [PyVal.isInt] at h

theorem dsAssignOne_spec (ds : DictSt) (i : ℕ) (v : PyVal) (m : String × Leaf DCb)
    (hget : ds.members[i]? = some m) (hd : 0 < ds.depth) :
    ∃ ds2, dsAssignOne ds i v = (ds2, 0) ∧
      ds2.members = ds.members.set i (m.1, (leafSet m.2 v).1) ∧
      ds2.active = ds.active ∧ ds2.depth = ds.depth ∧
      ds2.callbacks = ds.callbacks := by
  have hfold := dsNotifyFold_fields (leafSet m.2 v).2
    { ds with members := ds.members.set i (m.1, (leafSet m.2 v).1) } 0
    (by simpa using hd)
  refine ⟨_, ?_, hfold.1, hfold.2.1, hfold.2.2.1, hfold.2.2.2.1⟩
  unfold dsAssignOne
  rw [hget]
  rw [Prod.ext_iff]
  exact ⟨rfl, hfold.2.2.2.2⟩

theorem set_getElem_self_list {α : Type} (l : List α) (i : ℕ) (h : i < l.length) :
    l.set i l[i] = l := by
  apply List.ext_getElem?
  intro j
  by_cases hji : i = j
  · subst hji
    rw [List.getElem?_set_self h, List.getElem?_eq_getElem h]
  · rw [List.getElem?_set_ne hji]

theorem drop_set_self_list {α : Type} (l : List α) (i : ℕ) (a : α) :
    (l.set i a).drop (i + 1) = l.drop (i + 1) := by
  apply List.ext_getElem?
  intro j
  rw [List.getElem?_drop, List.getElem?_drop, List.getElem?_set_ne (by omega)]

theorem dsSetLoop_spec (args : List PyVal) (ds : DictSt) (i : ℕ)
    (hd : 0 < ds.depth)
    (hlen : i + args.length = ds.members.length) :
    (dsSetLoopFrom ds i args).2 = 0 ∧
    (dsSetLoopFrom ds i args).1.active = ds.active ∧
    (dsSetLoopFrom ds i args).1.depth = ds.depth ∧
    (dsSetLoopFrom ds i args).1.callbacks = ds.callbacks ∧
    (dsSetLoopFrom ds i args).1.members.map Prod.fst = ds.members.map Prod.fst ∧
    dsValues (dsSetLoopFrom ds i args).1
      = (dsValues ds).take i
        ++ ((ds.members.drop i).zip args).map
            (fun mv => (leafSet mv.1.2 mv.2).1.value) := by
  induction args generalizing ds i with
  | nil =>
    refine ⟨rfl, rfl, rfl, rfl, rfl, ?_⟩
    have hlen2 : (dsValues ds).length ≤ i := by
      simp only [dsValues, List.length_map]
      simp at hlen
      omega
    simp [dsSetLoopFrom, List.take_of_length_le hlen2]
  | cons v vs ih =>
    have hi : i < ds.members.length := by simp at hlen; omega
    have hget : ds.members[i]? = some ds.members[i] := List.getElem?_eq_getElem hi
    obtain ⟨ds2, hone, hmems, hact, hdep, hcbs⟩ :=
      dsAssignOne_spec ds i v ds.members[i] hget hd
    have hd2 : 0 < ds2.depth := hdep ▸ hd
    have hlen2 : (i + 1) + vs.length = ds2.members.length := by
      rw [hmems]
      simp at hlen ⊢
      omega
    have ihh := ih ds2 (i + 1) hd2 hlen2
    have hloop : dsSetLoopFrom ds i (v :: vs)
        = ((dsSetLoopFrom ds2 (i + 1) vs).1,
           0 + (dsSetLoopFrom ds2 (i + 1) vs).2) := by
      show (let r := dsAssignOne ds i v
            let r2 := dsSetLoopFrom r.1 (i + 1) vs
            (r2.1, r.2 + r2.2))
          = ((dsSetLoopFrom ds2 (i + 1) vs).1, 0 + (dsSetLoopFrom ds2 (i + 1) vs).2)
      rw [hone]
    have hdrop2 : ds2.members.drop (i + 1) = ds.members.drop (i + 1) := by
      rw [hmems]
      exact drop_set_self_list _ _ _
    have hdropcons : ds.members.drop i = ds.members[i] :: ds.members.drop (i + 1) :=
      List.drop_eq_getElem_cons hi
    refine ⟨?_, ?_, ?_, ?_, ?_, ?_⟩
    · rw [hloop]; simpa using ihh.1
    · rw [hloop]; simpa [hact] using ihh.2.1
    · rw [hloop]; simpa [hdep] using ihh.2.2.1
    · rw [hloop]; simpa [hcbs] using ihh.2.2.2.1
    · rw [hloop]
      have hmap := ihh.2.2.2.2.1
      rw [hmap, hmems]
      simp only [List.map_set]
      have hlen3 : i < (List.map Prod.fst ds.members).length := by simpa using hi
      have h1 : ds.members[i].1 = (List.map Prod.fst ds.members)[i] :=
        (List.getElem_map Prod.fst).symm
      rw [h1, set_getElem_self_list _ _ hlen3]
    · rw [hloop]
      have hvals := ihh.2.2.2.2.2
      simp only [hvals]
      have hvals2 : dsValues ds2
          = (dsValues ds).set i (leafSet ds.members[i].2 v).1.value := by
        simp only [dsValues, hmems, List.map_set]
      have hivals : i < (dsValues ds).length := by
        simpa [dsValues] using hi
      rw [hvals2, hdrop2, hdropcons, List.zip_cons_cons, List.map_cons,
        List.take_succ, List.getElem?_set_self hivals, List.set_take,
        List.set_eq_of_length_le (by simp [List.length_take])]
      simp

/-- **C2** (corrected).  For every `DictState` (members of any basic-state
kind, any precisions) and every argument list of matching arity,
`set(*args)` reassigns the i-th member in declaration order through its
leaf assignment semantics — storing the argument transformed by the
member's quantization, or keeping the old value when the transformed
argument is `==`-equal to it — and fires exactly one notification event on
the composite, regardless of how many member values actually change. -/
theorem claim2_batched_set (ds : DictSt) (args : List PyVal)
    (hlen : args.length = ds.members.length)
    (hact : ds.active = true) (hdep : ds.depth = 0) :
    ∃ ds2, dsSet ds args = some (ds2, 1) ∧
      dsValues ds2 = (ds.members.zip args).map
        (fun mv => (leafSet mv.1.2 mv.2).1.value) ∧
      ds2.members.map Prod.fst = ds.members.map Prod.fst := by
  have hloop := dsSetLoop_spec args { ds with depth := ds.depth + 1 } 0
    (by simp) (by simpa using hlen)
  set r := dsSetLoopFrom { ds with depth := ds.depth + 1 } 0 args with hr
  have hdep1 : r.1.depth = 1 := by
    rw [hloop.2.2.1]
    simp [hdep]
  have hact1 : r.1.active = true := by
    rw [hloop.2.1]
    exact hact
  have hexit : dsExit r.1
      = (({ r.1 with depth := r.1.depth - 1, pending := false } : DictSt), 1) := by
    simp [dsExit, dsNotify, hdep1, hact1]
  refine ⟨{ r.1 with depth := r.1.depth - 1, pending := false }, ?_, ?_, ?_⟩
  · unfold dsSet
    rw [if_pos hlen]
    simp only [← hr, hexit, hloop.1]
  · have := hloop.2.2.2.2.2
    simpa [dsValues] using this
  · have := hloop.2.2.2.2.1
    simpa using this

/-- C2 counterexample to the claim as stated: the composite
`V{x: FloatState(0.1, precision=1)}`; `V.set(0.12)` succeeds with exactly
one batch-exit notification, but the stored values are `[0.1]` — the
argument is rounded to the member's precision, which here equals the old
value so the assignment is suppressed — not `[0.12]` as the claim's value
exactness requires. -/
theorem claim2_counterexample :
    ∃ ds2, dsSet exVecF [.float (12/100)] = some (ds2, 1) ∧
      dsValues ds2 = [.float (1/10)] ∧
      dsValues ds2 ≠ [.float (12/100)] := by
  refine ⟨_, rfl, by decide, by decide⟩

/-- Witness for C2: the spec's example `V{x:10, y:20, z:30}`;
`V.set(1, 2, 3)` stores the leaf-assignment results — here exactly
`[1, 2, 3]` — and fires exactly one notification on the composite. -/
theorem claim2_batched_set_witness :
    ∃ ds2, dsSet exVec [.int 1, .int 2, .int 3] = some (ds2, 1) ∧
      dsValues ds2 = [.int 1, .int 2, .int 3] ∧
      ds2.members.map Prod.fst = ["x", "y", "z"] := by
  obtain ⟨ds2, h1, h2, h3⟩ := claim2_batched_set exVec [.int 1, .int 2, .int 3]
    (by decide) (by decide) (by decide)
  exact ⟨ds2, h1, h2.trans (by decide), h3.trans (by decide)⟩

/-! ### Claims C6 and C10: list-state channels -/

theorem foldl_append_parts {α β : Type} (g : α → List β) (xs : List α)
    (acc : List β) :
    xs.foldl (fun a c => a ++ g c) acc = acc ++ (xs.map g).flatten := by
  induction xs generalizing acc with
  | nil => simp
  | cons x rest ih => simp [ih, List.append_assoc]

theorem flatten_map_singleton {α β : Type} (f : α → β) (xs : List α) :
    (xs.map (fun x => [f x])).flatten = xs.map f := by
  induction xs with
  | nil => rfl
  | cons x rest ih => simp [ih]

/-- C6.  For every sequence state: `append` invokes exactly the callbacks of
the aggregate channel (each once, in order, via `notify_change`) and never
the `_ElementObserver` dispatcher; mutating the value of a contained element
(to a value that survives its equality check) invokes the element's own
callbacks and dispatches the element-wise channel's callbacks, and produces
no aggregate invocation on the sequence. -/
theorem claim6_channel_separation :
    (∀ (ls : ListSt) (elem : Leaf ElemCb), ls.active = true →
      (lsAppend ls elem).2
          = ls.callbacks.map (fun k => (⟨k, .aggregate, .theList⟩ : Invocation)) ∧
      ∀ inv ∈ (lsAppend ls elem).2, inv.chan ≠ Chan.elementWise) ∧
    (∀ (ls : ListSt) (i : ℕ) (l : Leaf ElemCb) (v : PyVal) (exts : List ℕ),
      ls.elems[i]? = some l → l.active = true →
      l.callbacks = exts.map ElemCb.external ++ [ElemCb.elemObs] →
      (l.verify && pyEq (applyPrecision l v) l.value) = false →
      lsSetElemValue ls i v
          = some ({ ls with elems := ls.elems.set i { l with value := applyPrecision l v } },
              exts.map (fun k => (⟨k, .elemOwn, .theElem l.ident⟩ : Invocation))
                ++ ls.elemObsCallbacks.map
                    (fun k => (⟨k, .elementWise, .theList⟩ : Invocation))) ∧
      ∀ inv ∈ (exts.map (fun k => (⟨k, .elemOwn, .theElem l.ident⟩ : Invocation))
                ++ ls.elemObsCallbacks.map
                    (fun k => (⟨k, .elementWise, .theList⟩ : Invocation))),
        inv.chan ≠ Chan.aggregate) := by
  constructor
  · intro ls elem ha
    constructor
    · simp [lsAppend, lsNotify, ha]
    · intro inv hinv
      simp [lsAppend, lsNotify, ha] at hinv
      obtain ⟨k, _, rfl⟩ := hinv
      simp
  · intro ls i l v exts hget hact hcbs hch
    have hstep : leafSet l v = ({ l with value := applyPrecision l v }, l.callbacks) := by
      simp [leafSet, hch, hact]
    constructor
    · simp only [lsSetElemValue, hget]
      simp only [hstep, hcbs]
      rw [foldl_append_parts]
      simp [elemObsCall, Function.comp_def, flatten_map_singleton]
    · intro inv hinv
      rcases List.mem_append.mp hinv with h | h <;>
        (obtain ⟨k, _, rfl⟩ := List.mem_map.mp h; simp)

/-- Witness for C6: a list with one aggregate callback `1` and one
element-wise callback `2`; appending `IntState(5)` fires exactly callback `1`
via the aggregate channel; mutating element `0` (which has a direct callback
`7`) to `9` fires `7` on the element and `2` via the element-wise channel,
with no aggregate invocation. -/
theorem claim6_channel_separation_witness :
    (lsAppend exListA (mkIntLeaf 0 5)).2 = [⟨1, .aggregate, .theList⟩] ∧
    lsSetElemValue exListB 0 (.int 9)
      = some ({ exListB with elems := [{ exElemB with value := .int 9 }] },
          [⟨7, .elemOwn, .theElem 0⟩, ⟨2, .elementWise, .theList⟩]) := by
  constructor
  · exact ((claim6_channel_separation.1 exListA (mkIntLeaf 0 5) rfl).1).trans (by decide)
  · exact ((claim6_channel_separation.2 exListB 0 exElemB (.int 9) [7]
      (by decide) (by decide) (by decide) (by decide)).1).trans (by decide)

/-- C10.  `ListState.on_change(cb, element_wise=True)` appends the callback
both to the `_ElementObserver`'s list and to the sequence's own aggregate
callback list; consequently a later `append` also invokes it (receiving the
`ListState`), and every element-wise dispatch passes the `ListState` itself
to the callback, never the element whose value changed. -/
theorem claim10_elementwise_registration :
    (∀ (ls : ListSt) (cb : ℕ) (trigger : Bool),
      lsOnChange ls cb trigger true
        = ({ ls with
             elemObsCallbacks := ls.elemObsCallbacks ++ [cb]
             callbacks := ls.callbacks ++ [cb] },
           if trigger then [⟨cb, .immediate, .theList⟩] else [])) ∧
    (∀ (ls : ListSt) (cb : ℕ) (elem : Leaf ElemCb), ls.active = true →
      (⟨cb, Chan.aggregate, CbArg.theList⟩ : Invocation)
        ∈ (lsAppend (lsOnChange ls cb false true).1 elem).2) ∧
    (∀ ls : ListSt, ∀ inv ∈ elemObsCall ls, inv.arg = CbArg.theList) := by
  refine ⟨?_, ?_, ?_⟩
  · intro ls cb trigger
    simp [lsOnChange]
  · intro ls cb elem ha
    simp [lsOnChange, lsAppend, lsNotify, ha]
  · intro ls inv hinv
    obtain ⟨k, _, rfl⟩ := List.mem_map.mp hinv
    rfl

/-- Witness for C10: registering callback `3` element-wise on an empty list
puts it in both registries, and appending `IntState(1)` then invokes it with
the list. -/
theorem claim10_elementwise_registration_witness :
    lsOnChange mkListSt 3 false true
      = ({ mkListSt with elemObsCallbacks := [3], callbacks := [3] }, []) ∧
    (⟨3, Chan.aggregate, CbArg.theList⟩ : Invocation)
      ∈ (lsAppend (lsOnChange mkListSt 3 false true).1 (mkIntLeaf 0 1)).2 := by
  refine ⟨(claim10_elementwise_registration.1 mkListSt 3 false).trans (by decide),
    claim10_elementwise_registration.2.1 mkListSt 3 (mkIntLeaf 0 1) rfl⟩

/-! ### Lemmas about the higher-order-state member list -/

theorem pyEq_symm (a b : PyVal) : pyEq a b = pyEq b a := by
  cases a <;> cases b <;> simp [pyEq, PyVal.asNum, eq_comm]

theorem lookupLeaf_append_of_none (ms : List (String × Leaf CCb)) (n : String)
    (l : Leaf CCb) (h : lookupLeaf ms n = none) :
    lookupLeaf (ms ++ [(n, l)]) n = some l := by
  induction ms with
  | nil => simp [lookupLeaf]
  | cons m rest ih =>
    simp only [lookupLeaf] at h
    simp only [List.cons_append, lookupLeaf]
    by_cases hm : m.1 = n
    · rw [if_pos hm] at h
      cases h
    · rw [if_neg hm] at h ⊢
      exact ih h

theorem lookupLeaf_append_left (ms ms2 : List (String × Leaf CCb)) (n : String)
    (l : Leaf CCb) (h : lookupLeaf ms n = some l) :
    lookupLeaf (ms ++ ms2) n = some l := by
  induction ms with
  | nil => cases h
  | cons m rest ih =>
    simp only [lookupLeaf] at h
    simp only [List.cons_append, lookupLeaf]
    by_cases hm : m.1 = n
    · rwa [if_pos hm] at h ⊢
    · rw [if_neg hm] at h ⊢
      exact ih h

theorem lookupLeaf_append_none (ms ms2 : List (String × Leaf CCb)) (n : String)
    (h : lookupLeaf ms n = none) :
    lookupLeaf (ms ++ ms2) n = lookupLeaf ms2 n := by
  induction ms with
  | nil => rfl
  | cons m rest ih =>
    simp only [lookupLeaf] at h
    simp only [List.cons_append, lookupLeaf]
    by_cases hm : m.1 = n
    · rw [if_pos hm] at h
      cases h
    · rw [if_neg hm] at h ⊢
      exact ih h

theorem lookupLeaf_setLeafIn_ne (ms : List (String × Leaf CCb)) (n m : String)
    (l : Leaf CCb) (hnm : n ≠ m) :
    lookupLeaf (setLeafIn ms n l) m = lookupLeaf ms m := by
  induction ms with
  | nil => rfl
  | cons e rest ih =>
    unfold setLeafIn
    by_cases he : e.1 = n
    · rw [if_pos he]
      unfold lookupLeaf
      rw [if_neg (he ▸ hnm : e.1 ≠ m), if_neg (he ▸ hnm : e.1 ≠ m)]
    · rw [if_neg he]
      unfold lookupLeaf
      by_cases hem : e.1 = m
      · rw [if_pos hem, if_pos hem]
      · rw [if_neg hem, if_neg hem]
        exact ih

theorem lookupLeaf_setLeafIn_self (ms : List (String × Leaf CCb)) (n : String)
    (l0 l : Leaf CCb) (h : lookupLeaf ms n = some l0) :
    lookupLeaf (setLeafIn ms n l) n = some l := by
  induction ms with
  | nil => cases h
  | cons e rest ih =>
    unfold lookupLeaf at h
    unfold setLeafIn
    by_cases he : e.1 = n
    · rw [if_pos he]
      unfold lookupLeaf
      rw [if_pos he]
    · rw [if_neg he] at h
      rw [if_neg he]
      unfold lookupLeaf
      rw [if_neg he]
      exact ih h

theorem setLeafIn_lookup_eq (ms : List (String × Leaf CCb)) (n : String)
    (l0 : Leaf CCb) (h : lookupLeaf ms n = some l0) :
    setLeafIn ms n l0 = ms := by
  induction ms with
  | nil => rfl
  | cons e rest ih =>
    unfold lookupLeaf at h
    unfold setLeafIn
    by_cases he : e.1 = n
    · rw [if_pos he]
      rw [if_pos he] at h
      injection h with h
      rw [← h]
    · rw [if_neg he]
      rw [if_neg he] at h
      rw [ih h]

theorem lookupLeaf_addCbIn (ms : List (String × Leaf CCb)) (p n : String) :
    lookupLeaf (addCbIn ms p) n =
      if p = n then
        (lookupLeaf ms n).map
          (fun l => { l with callbacks := l.callbacks ++ [CCb.recompute] })
      else lookupLeaf ms n := by
  induction ms with
  | nil =>
    by_cases hpn : p = n <;> simp [addCbIn, lookupLeaf, hpn]
  | cons e rest ih =>
    unfold addCbIn
    by_cases hep : e.1 = p
    · rw [if_pos hep]
      by_cases hpn : p = n
      · rw [if_pos hpn]
        unfold lookupLeaf
        rw [if_pos (hep.trans hpn), if_pos (hep.trans hpn)]
        rfl
      · rw [if_neg hpn]
        unfold lookupLeaf
        rw [if_neg (fun hh => hpn (hep.symm.trans hh)), if_neg (fun hh => hpn (hep.symm.trans hh))]
    · rw [if_neg hep]
      by_cases hpn : p = n
      · rw [if_pos hpn]
        unfold lookupLeaf
        by_cases hen : e.1 = n
        · exact absurd (hen.trans hpn.symm) hep
        · rw [if_neg hen, if_neg hen]
          have := ih
          rw [if_pos hpn] at this
          exact this
      · rw [if_neg hpn]
        unfold lookupLeaf
        by_cases hen : e.1 = n
        · rw [if_pos hen, if_pos hen]
        · rw [if_neg hen, if_neg hen]
          have := ih
          rw [if_neg hpn] at this
          exact this

theorem lookupLeaf_foldl_addCbIn (params : List String)
    (ms : List (String × Leaf CCb)) (n : String) :
    (lookupLeaf ms n = none →
      lookupLeaf (params.foldl (fun acc p => addCbIn acc p) ms) n = none) ∧
    (∀ l, lookupLeaf ms n = some l →
      ∃ extra, lookupLeaf (params.foldl (fun acc p => addCbIn acc p) ms) n
        = some { l with callbacks := l.callbacks ++ extra }) := by
  induction params generalizing ms with
  | nil =>
    refine ⟨fun h => h, fun l h => ⟨[], ?_⟩⟩
    simpa using h
  | cons p rest ih =>
    constructor
    · intro h
      refine (ih (addCbIn ms p)).1 ?_
      rw [lookupLeaf_addCbIn]
      by_cases hpn : p = n <;> simp [hpn, h]
    · intro l h
      by_cases hpn : p = n
      · have h1 : lookupLeaf (addCbIn ms p) n
            = some { l with callbacks := l.callbacks ++ [CCb.recompute] } := by
          rw [lookupLeaf_addCbIn, if_pos hpn, h]
          rfl
        obtain ⟨extra, h2⟩ := (ih (addCbIn ms p)).2 _ h1
        refine ⟨[CCb.recompute] ++ extra, ?_⟩
        simpa [List.append_assoc] using h2
      · have h1 : lookupLeaf (addCbIn ms p) n = some l := by
          rw [lookupLeaf_addCbIn, if_neg hpn, h]
        exact (ih _).2 l h1

theorem recompute_mem_foldl_addCbIn (params : List String)
    (ms : List (String × Leaf CCb)) (p : String) (hp : p ∈ params)
    (l2 : Leaf CCb)
    (h : lookupLeaf (params.foldl (fun acc q => addCbIn acc q) ms) p = some l2) :
    CCb.recompute ∈ l2.callbacks := by
  induction params generalizing ms with
  | nil => cases hp
  | cons q rest ih =>
    rcases List.mem_cons.mp hp with rfl | hpr
    · -- the first fold step appends the recompute callback at `p`;
      -- the remaining steps only extend callback lists
      cases hms : lookupLeaf ms p with
      | none =>
        have h0 : lookupLeaf (addCbIn ms p) p = none := by
          rw [lookupLeaf_addCbIn, if_pos rfl, hms]
          rfl
        have := (lookupLeaf_foldl_addCbIn rest (addCbIn ms p) p).1 h0
        rw [List.foldl_cons] at h
        rw [this] at h
        cases h
      | some l =>
        have h0 : lookupLeaf (addCbIn ms p) p
            = some { l with callbacks := l.callbacks ++ [CCb.recompute] } := by
          rw [lookupLeaf_addCbIn, if_pos rfl, hms]
          rfl
        obtain ⟨extra, h2⟩ := (lookupLeaf_foldl_addCbIn rest (addCbIn ms p) p).2 _ h0
        rw [List.foldl_cons] at h
        rw [h2] at h
        injection h with h
        subst h
        simp
    · exact ih (addCbIn ms q) hpr (by rwa [List.foldl_cons] at h)

theorem lookupLeaf_append_or (ms ms2 : List (String × Leaf CCb)) (n : String)
    (l : Leaf CCb) (h : lookupLeaf (ms ++ ms2) n = some l) :
    lookupLeaf ms n = some l ∨ lookupLeaf ms2 n = some l := by
  induction ms with
  | nil => exact .inr h
  | cons m rest ih =>
    simp only [List.cons_append, lookupLeaf] at h
    simp only [lookupLeaf]
    by_cases hm : m.1 = n
    · rw [if_pos hm] at h ⊢
      exact .inl h
    · rw [if_neg hm] at h ⊢
      exact ih h

theorem wrapValue_fields (i : ℕ) (v : PyVal) :
    (wrapValue i v : Leaf CCb).kind = kindOf v ∧
    (wrapValue i v : Leaf CCb).value = v ∧
    (wrapValue i v : Leaf CCb).verify = decide (kindOf v ≠ LeafKind.obj) ∧
    (wrapValue i v : Leaf CCb).precision = none ∧
    (wrapValue i v : Leaf CCb).active = true ∧
    (wrapValue i v : Leaf CCb).callbacks = [] := by
  cases v <;> exact ⟨rfl, rfl, rfl, rfl, rfl, rfl⟩

theorem paramVals_eq (s s' : HOS) (hp : s'.params = s.params)
    (h : ∀ p, p ∈ s.params → lookupLeaf s'.members p = lookupLeaf s.members p) :
    paramVals s' = paramVals s := by
  unfold paramVals
  rw [hp]
  exact List.map_congr_left (fun p hpm => by rw [h p hpm])

theorem bindAttr_bound_error (s : HOS) (n : String) (l l0 : Leaf CCb)
    (h : lookupLeaf s.members n = some l0) :
    bindAttr s n l = .error .illegalRebind := by
  have hc : (hasattrB s n && !callableB s n) = true := by
    simp [hasattrB, callableB, h]
  unfold bindAttr
  rw [if_pos hc]

theorem bindAttr_unbound_ok (s : HOS) (n : String) (l : Leaf CCb)
    (h : lookupLeaf s.members n = none) :
    bindAttr s n l = .ok { s with members :=
      s.members ++ [(n, { l with callbacks := l.callbacks ++ [CCb.forward] })] } := by
  have hc : (hasattrB s n && !callableB s n) = false := by
    simp [hasattrB, callableB, h]
  unfold bindAttr
  rw [hc, if_neg Bool.false_ne_true]

theorem bindAttr_ok_members (s : HOS) (n : String) (l : Leaf CCb) (t : HOS)
    (h : bindAttr s n l = .ok t) :
    t.members = s.members ++ [(n, { l with callbacks := l.callbacks ++ [CCb.forward] })] := by
  unfold bindAttr at h
  split at h
  · cases h
  · injection h with h
    rw [← h]

theorem updateComputed_none (s : HOS) (h : lookupLeaf s.members s.cname = none) :
    updateComputed s = s := by
  unfold updateComputed
  rw [h]

theorem foldRecompute_none (cbs : List CCb) (s : HOS)
    (h : lookupLeaf s.members s.cname = none) :
    cbs.foldl (fun acc cb => match cb with
      | CCb.recompute => updateComputed acc
      | _ => acc) s = s := by
  induction cbs with
  | nil => rfl
  | cons cb rest ih =>
    rw [List.foldl_cons]
    cases cb with
    | external k => exact ih
    | forward => exact ih
    | recompute =>
      show rest.foldl _ (updateComputed s) = s
      rw [updateComputed_none s h]
      exact ih

theorem tryActivate_skip (s : HOS)
    (h : (lookupLeaf s.members s.cname).isSome = true ∨
         (s.params.all fun p => hasattrB s p) = false ∨
         (s.params.all fun p => (lookupLeaf s.members p).isSome) = false) :
    tryActivate s = s := by
  unfold tryActivate
  by_cases c1 : (lookupLeaf s.members s.cname).isSome = true
  · rw [if_pos c1]
  · rw [if_neg c1]
    by_cases c2 : (!(s.params.all fun p => hasattrB s p)) = true
    · rw [if_pos c2]
    · rw [if_neg c2]
      rcases h with h | h | h
      · exact absurd h c1
      · exact absurd (by simp [h] : (!(s.params.all fun p => hasattrB s p)) = true) c2
      · rw [if_pos (by simp [h] : (!(s.params.all fun p =>
          (lookupLeaf s.members p).isSome)) = true)]

theorem tryActivate_activate (s : HOS)
    (h1 : lookupLeaf s.members s.cname = none)
    (h2 : (s.params.all fun p => hasattrB s p) = true)
    (h3 : (s.params.all fun p => (lookupLeaf s.members p).isSome) = true) :
    tryActivate s = activateHOS s := by
  have hnone : lookupLeaf (s.params.foldl (fun acc p => addCbIn acc p) s.members)
      s.cname = none :=
    (lookupLeaf_foldl_addCbIn s.params s.members s.cname).1 h1
  unfold tryActivate
  rw [if_neg (by simp [h1] : ¬((lookupLeaf s.members s.cname).isSome = true)),
    if_neg (by simp [h2] : ¬((!(s.params.all fun p => hasattrB s p)) = true)),
    if_neg (by simp [h3] : ¬((!(s.params.all fun p =>
      (lookupLeaf s.members p).isSome)) = true))]
  simp only []
  split
  · rename_i s2 heq
    rw [bindAttr_unbound_ok] at heq
    · injection heq with heq
      rw [← heq]
      rfl
    · exact hnone
  · rename_i e heq
    rw [bindAttr_unbound_ok] at heq
    · cases heq
    · exact hnone

theorem activateHOS_lookup_old (s : HOS) (n : String) (l1 : Leaf CCb)
    (h : lookupLeaf s.members n = some l1) :
    ∃ extra, lookupLeaf (activateHOS s).members n
      = some { l1 with callbacks := l1.callbacks ++ extra } := by
  obtain ⟨extra, hx⟩ := (lookupLeaf_foldl_addCbIn s.params s.members n).2 l1 h
  exact ⟨extra, lookupLeaf_append_left _ _ _ _ hx⟩

theorem tryActivate_lookup (s : HOS) (n : String) (l1 : Leaf CCb)
    (h : lookupLeaf s.members n = some l1) :
    ∃ extra, lookupLeaf (tryActivate s).members n
      = some { l1 with callbacks := l1.callbacks ++ extra } := by
  cases hc1 : lookupLeaf s.members s.cname with
  | some t =>
    rw [tryActivate_skip s (.inl (by rw [hc1]; rfl))]
    exact ⟨[], by rw [h]; simp⟩
  | none =>
    cases hc2 : (s.params.all fun p => hasattrB s p) with
    | false =>
      rw [tryActivate_skip s (.inr (.inl hc2))]
      exact ⟨[], by rw [h]; simp⟩
    | true =>
      cases hc3 : (s.params.all fun p => (lookupLeaf s.members p).isSome) with
      | false =>
        rw [tryActivate_skip s (.inr (.inr hc3))]
        exact ⟨[], by rw [h]; simp⟩
      | true =>
        rw [tryActivate_activate s hc1 hc2 hc3]
        exact activateHOS_lookup_old s n l1 h

theorem setattrState_bound_error (s : HOS) (name : String) (l l0 : Leaf CCb)
    (h : lookupLeaf s.members name = some l0) :
    setattrState s name l = .error .illegalRebind := by
  unfold setattrState
  rw [bindAttr_bound_error s name l l0 h]
  rfl

theorem setattrRaw_bound_error (s : HOS) (name : String) (v : PyVal)
    (l0 : Leaf CCb) (h : lookupLeaf s.members name = some l0) :
    setattrRaw s name v = .error .illegalRebind := by
  unfold setattrRaw
  show (bindAttr { s with nextId := s.nextId + 1 } name
    (wrapValue s.nextId v)).map tryActivate = _
  rw [bindAttr_bound_error { s with nextId := s.nextId + 1 } name _ l0 h]
  rfl

theorem setattrState_unbound (s : HOS) (name : String) (l : Leaf CCb)
    (h : lookupLeaf s.members name = none) :
    setattrState s name l = .ok (tryActivate { s with members :=
      s.members ++ [(name, { l with callbacks := l.callbacks ++ [CCb.forward] })] }) := by
  unfold setattrState
  rw [bindAttr_unbound_ok s name l h]
  rfl

theorem setattrRaw_unbound (s : HOS) (name : String) (v : PyVal)
    (h : lookupLeaf s.members name = none) :
    setattrRaw s name v = .ok (tryActivate { s with
      nextId := s.nextId + 1,
      members := s.members ++ [(name,
        { (wrapValue s.nextId v : Leaf CCb) with
          callbacks := (wrapValue s.nextId v : Leaf CCb).callbacks ++ [CCb.forward] })] }) := by
  unfold setattrRaw
  show (bindAttr { s with nextId := s.nextId + 1 } name
    (wrapValue s.nextId v)).map tryActivate = _
  rw [bindAttr_unbound_ok { s with nextId := s.nextId + 1 } name _ h]
  rfl

theorem lookupLeaf_single (name n : String) (l l' : Leaf CCb)
    (h : lookupLeaf [(name, l)] n = some l') : name = n ∧ l' = l := by
  unfold lookupLeaf at h
  by_cases hm : name = n
  · rw [if_pos hm] at h
    injection h with h
    exact ⟨hm, h.symm⟩
  · rw [if_neg hm] at h
    exact Option.noConfusion h

theorem lookupLeaf_append_single_ne (ms : List (String × Leaf CCb)) (name n : String)
    (l : Leaf CCb) (hne : name ≠ n) :
    lookupLeaf (ms ++ [(name, l)]) n = lookupLeaf ms n := by
  cases hm : lookupLeaf ms n with
  | some l0 => exact lookupLeaf_append_left ms _ n l0 hm
  | none =>
    rw [lookupLeaf_append_none ms _ n hm]
    simp [lookupLeaf, hne]

theorem list_all_congr {α : Type} (ps : List α) (f g : α → Bool)
    (h : ∀ p, p ∈ ps → f p = g p) : ps.all f = ps.all g := by
  induction ps with
  | nil => rfl
  | cons p rest ih =>
    simp only [List.all_cons]
    rw [h p (List.mem_cons_self p rest), ih (fun q hq => h q (List.mem_cons_of_mem p hq))]

theorem allParamsBound_iff (s : HOS) :
    allParamsBound s = true ↔
      ∀ p, p ∈ s.params → (lookupLeaf s.members p).isSome = true := by
  unfold allParamsBound
  exact List.all_eq_true

theorem leafSet_fst_cases {κ : Type} (l : Leaf κ) (v : PyVal) :
    (leafSet l v).1 = l ∨ (leafSet l v).1 = { l with value := applyPrecision l v } := by
  simp only [leafSet]
  split
  · exact .inl rfl
  · exact .inr rfl

theorem leafSet_pyEq {κ : Type} (l : Leaf κ) (v : PyVal) (hpr : l.precision = none) :
    pyEq (leafSet l v).1.value v = true := by
  have hap : applyPrecision l v = v := by
    unfold applyPrecision
    rw [hpr]
  simp only [leafSet]
  rw [hap]
  split
  · rename_i hcond
    rw [pyEq_symm]
    exact (Bool.and_eq_true _ _ |>.mp hcond).2
  · exact pyEq_refl v

theorem updateComputed_spec (s : HOS) (t : Leaf CCb)
    (hc : lookupLeaf s.members s.cname = some t)
    (hpr : t.precision = none) :
    ∃ t2, lookupLeaf (updateComputed s).members s.cname = some t2 ∧
      t2.ident = t.ident ∧ t2.verify = t.verify ∧ t2.precision = t.precision ∧
      t2.active = t.active ∧ t2.callbacks = t.callbacks ∧
      pyEq t2.value (s.f (paramVals s)) = true ∧
      (∀ n, n ≠ s.cname →
        lookupLeaf (updateComputed s).members n = lookupLeaf s.members n) ∧
      (updateComputed s).cname = s.cname ∧ (updateComputed s).params = s.params ∧
      (updateComputed s).f = s.f := by
  have hu : updateComputed s = { s with members := setLeafIn s.members s.cname (leafSet t (s.f (paramVals s))).1 } := by
    unfold updateComputed
    rw [hc]
  rw [hu]
  refine ⟨(leafSet t (s.f (paramVals s))).1,
    lookupLeaf_setLeafIn_self s.members s.cname t _ hc,
    ?_, ?_, ?_, ?_, ?_,
    leafSet_pyEq t (s.f (paramVals s)) hpr,
    fun n hn => lookupLeaf_setLeafIn_ne s.members s.cname n _ (fun hh => hn hh.symm),
    rfl, rfl, rfl⟩ <;>
  rcases leafSet_fst_cases t (s.f (paramVals s)) with hcase | hcase <;>
  rw [hcase]

theorem foldRecompute_spec (cbs : List CCb) (s : HOS) (t : Leaf CCb)
    (hc : lookupLeaf s.members s.cname = some t)
    (hpr : t.precision = none)
    (hcp : s.cname ∉ s.params)
    (hstart : CCb.recompute ∈ cbs ∨ pyEq t.value (s.f (paramVals s)) = true) :
    ∃ t2, lookupLeaf (cbs.foldl (fun acc cb => match cb with
        | CCb.recompute => updateComputed acc
        | _ => acc) s).members s.cname = some t2 ∧
      t2.ident = t.ident ∧ t2.verify = t.verify ∧ t2.precision = t.precision ∧
      t2.active = t.active ∧ t2.callbacks = t.callbacks ∧
      pyEq t2.value (s.f (paramVals s)) = true ∧
      (∀ n, n ≠ s.cname → lookupLeaf (cbs.foldl (fun acc cb => match cb with
        | CCb.recompute => updateComputed acc
        | _ => acc) s).members n = lookupLeaf s.members n) ∧
      (cbs.foldl (fun acc cb => match cb with
        | CCb.recompute => updateComputed acc
        | _ => acc) s).cname = s.cname ∧
      (cbs.foldl (fun acc cb => match cb with
        | CCb.recompute => updateComputed acc
        | _ => acc) s).params = s.params ∧
      (cbs.foldl (fun acc cb => match cb with
        | CCb.recompute => updateComputed acc
        | _ => acc) s).f = s.f := by
  induction cbs generalizing s t with
  | nil =>
    rcases hstart with hstart | hstart
    · cases hstart
    · exact ⟨t, hc, rfl, rfl, rfl, rfl, rfl, hstart, fun n _ => rfl, rfl, rfl, rfl⟩
  | cons cb rest ih =>
    cases cb with
    | external k =>
      refine ih s t hc hpr hcp ?_
      rcases hstart with hstart | hstart
      · rcases List.mem_cons.mp hstart with hh | hh
        · cases hh
        · exact .inl hh
      · exact .inr hstart
    | forward =>
      refine ih s t hc hpr hcp ?_
      rcases hstart with hstart | hstart
      · rcases List.mem_cons.mp hstart with hh | hh
        · cases hh
        · exact .inl hh
      · exact .inr hstart
    | recompute =>
      obtain ⟨t2, hl2, hid2, hvf2, hpr2, hac2, hcb2, hlaw2, hne2, hcn2, hps2, hf2⟩ :=
        updateComputed_spec s t hc hpr
      have hpv2 : paramVals (updateComputed s) = paramVals s :=
        paramVals_eq s (updateComputed s) hps2
          (fun p hp => hne2 p (fun hh => hcp (hh ▸ hp)))
      have hc2 : lookupLeaf (updateComputed s).members (updateComputed s).cname
          = some t2 := by rw [hcn2]; exact hl2
      have hcp2 : (updateComputed s).cname ∉ (updateComputed s).params := by
        rw [hcn2, hps2]; exact hcp
      have hlaw2' : pyEq t2.value ((updateComputed s).f
          (paramVals (updateComputed s))) = true := by
        rw [hf2, hpv2]; exact hlaw2
      obtain ⟨t3, hl3, hid3, hvf3, hpr3, hac3, hcb3, hlaw3, hne3, hcn3, hps3, hf3⟩ :=
        ih (updateComputed s) t2 hc2 (hpr2.trans hpr) hcp2 (.inr hlaw2')
      refine ⟨t3, by rw [← hcn2]; exact hl3, hid3.trans hid2, hvf3.trans hvf2,
        hpr3.trans hpr2, hac3.trans hac2, hcb3.trans hcb2, ?_, ?_, ?_, ?_, ?_⟩
      · rw [hf2, hpv2] at hlaw3
        exact hlaw3
      · intro n hn
        show lookupLeaf (List.foldl (fun acc cb => match cb with
          | CCb.recompute => updateComputed acc
          | _ => acc) (updateComputed s) rest).members n = lookupLeaf s.members n
        rw [hne3 n (fun hh => hn (hh.trans hcn2)), hne2 n hn]
      · exact hcn3.trans hcn2
      · exact hps3.trans hps2
      · exact hf3.trans hf2

theorem activateHOS_spec (s : HOS)
    (hg1 : lookupLeaf s.members s.cname = none)
    (hg3 : (s.params.all fun p => (lookupLeaf s.members p).isSome) = true) :
    (activateHOS s).cname = s.cname ∧ (activateHOS s).params = s.params ∧
    (activateHOS s).f = s.f ∧
    (∃ t, lookupLeaf (activateHOS s).members s.cname = some t ∧
      t.verify = true ∧ t.precision = none ∧ t.active = true ∧
      t.value = (activateHOS s).f (paramVals (activateHOS s))) ∧
    (∀ p, p ∈ s.params → ∃ lp0 extra, lookupLeaf s.members p = some lp0 ∧
      lookupLeaf (activateHOS s).members p
        = some { lp0 with callbacks := lp0.callbacks ++ extra } ∧
      CCb.recompute ∈ lp0.callbacks ++ extra) ∧
    (∀ n l, lookupLeaf (activateHOS s).members n = some l →
      (∃ l0 extra, lookupLeaf s.members n = some l0 ∧
        l = { l0 with callbacks := l0.callbacks ++ extra }) ∨
      (n = s.cname ∧ l.verify = true ∧ l.precision = none ∧ l.active = true ∧
        l.value = (activateHOS s).f (paramVals (activateHOS s)))) := by
  have hms1n : lookupLeaf (s.params.foldl (fun acc p => addCbIn acc p) s.members)
      s.cname = none :=
    (lookupLeaf_foldl_addCbIn s.params s.members s.cname).1 hg1
  obtain ⟨nl, hFm, hnlv, hnlp, hnla, hnlval⟩ :
      ∃ nl : Leaf CCb, (activateHOS s).members
          = (s.params.foldl (fun acc p => addCbIn acc p) s.members) ++ [(s.cname, nl)] ∧
        nl.verify = true ∧ nl.precision = none ∧ nl.active = true ∧
        nl.value = s.f (paramVals { s with
          members := s.params.foldl (fun acc p => addCbIn acc p) s.members }) :=
    ⟨_, rfl, rfl, rfl, rfl, rfl⟩
  have hFc : lookupLeaf (activateHOS s).members s.cname = some nl := by
    rw [hFm, lookupLeaf_append_none _ _ _ hms1n]
    simp [lookupLeaf]
  have hccp : s.cname ∉ s.params := by
    intro hmem
    have := List.all_eq_true.mp hg3 s.cname hmem
    rw [hg1] at this
    exact Bool.noConfusion this
  have hvals : paramVals (activateHOS s) = paramVals { s with
      members := s.params.foldl (fun acc p => addCbIn acc p) s.members } := by
    refine paramVals_eq _ _ rfl (fun p hp => ?_)
    have hpc : s.cname ≠ p := fun hh => hccp (hh ▸ hp)
    rw [hFm]
    exact lookupLeaf_append_single_ne _ _ _ _ hpc
  refine ⟨rfl, rfl, rfl, ⟨nl, hFc, hnlv, hnlp, hnla, ?_⟩, ?_, ?_⟩
  · rw [hvals]
    exact hnlval
  · intro p hp
    have hsome := List.all_eq_true.mp hg3 p hp
    cases hsp : lookupLeaf s.members p with
    | none =>
      rw [hsp] at hsome
      exact Bool.noConfusion hsome
    | some lp0 =>
      obtain ⟨extra, hx⟩ := (lookupLeaf_foldl_addCbIn s.params s.members p).2 lp0 hsp
      refine ⟨lp0, extra, rfl, ?_, ?_⟩
      · rw [hFm]
        exact lookupLeaf_append_left _ _ _ _ hx
      · exact recompute_mem_foldl_addCbIn s.params s.members p hp _ hx
  · intro n l hl
    rw [hFm] at hl
    rcases lookupLeaf_append_or _ _ _ _ hl with hl | hl
    · cases hsn : lookupLeaf s.members n with
      | none =>
        rw [(lookupLeaf_foldl_addCbIn s.params s.members n).1 hsn] at hl
        exact Option.noConfusion hl
      | some l0 =>
        obtain ⟨extra, hx⟩ := (lookupLeaf_foldl_addCbIn s.params s.members n).2 l0 hsn
        rw [hx] at hl
        injection hl with hl
        exact .inl ⟨l0, extra, rfl, hl.symm⟩
    · obtain ⟨hn, rfl⟩ := lookupLeaf_single s.cname n nl l hl
      refine .inr ⟨hn.symm, hnlv, hnlp, hnla, ?_⟩
      rw [hvals]
      exact hnlval

theorem bindStill_inv (s s0 : HOS) (name : String) (L : Leaf CCb)
    (hms : s0.members = s.members ++ [(name, L)])
    (hcn : s0.cname = s.cname) (hps : s0.params = s.params) (hf : s0.f = s.f)
    (hop : name ≠ s.cname) (hb : lookupLeaf s.members name = none)
    (hLact : L.active = true) (hinv : InvHOS s)
    (hg1 : lookupLeaf s0.members s0.cname = none)
    (hall0 : allParamsBound s0 = false) :
    InvHOS s0 ∧ s0.cname = s.cname ∧ s0.params = s.params ∧ s0.f = s.f ∧
    (activated s = true → computedIdent s0 = computedIdent s) ∧
    (activated s = false → activated s0 = true →
      ∃ t, lookupLeaf s0.members s0.cname = some t ∧
        t.value = s0.f (paramVals s0)) := by
  obtain ⟨hAct, hIff, hNoc, hComp⟩ := hinv
  have hact0 : activated s0 = false := by
    unfold activated
    rw [hg1]
    rfl
  have hcsn : lookupLeaf s.members s.cname = none := by
    rw [hms, hcn] at hg1
    cases hsc : lookupLeaf s.members s.cname with
    | none => rfl
    | some t =>
      rw [lookupLeaf_append_left _ _ _ t hsc] at hg1
      exact Option.noConfusion hg1
  refine ⟨⟨?_, ?_, ?_, ?_⟩, hcn, hps, hf, ?_, ?_⟩
  · intro n l hl
    rw [hms] at hl
    rcases lookupLeaf_append_or _ _ _ _ hl with hl | hl
    · exact hAct n l hl
    · obtain ⟨-, rfl⟩ := lookupLeaf_single name n L l hl
      exact hLact
  · rw [hact0, hall0]
  · intro hx
    rw [hact0] at hx
    exact Bool.noConfusion hx
  · intro t' ht'
    rw [hg1] at ht'
    exact Option.noConfusion ht'
  · intro hx
    unfold activated at hx
    rw [hcsn] at hx
    exact Bool.noConfusion hx
  · intro _ hx
    rw [hact0] at hx
    exact Bool.noConfusion hx

theorem bindStep_inv (s s0 : HOS) (name : String) (L : Leaf CCb)
    (hms : s0.members = s.members ++ [(name, L)])
    (hcn : s0.cname = s.cname) (hps : s0.params = s.params) (hf : s0.f = s.f)
    (hop : name ≠ s.cname) (hb : lookupLeaf s.members name = none)
    (hLact : L.active = true) (hinv : InvHOS s) :
    InvHOS (tryActivate s0) ∧ (tryActivate s0).cname = s.cname ∧
    (tryActivate s0).params = s.params ∧ (tryActivate s0).f = s.f ∧
    (activated s = true → computedIdent (tryActivate s0) = computedIdent s) ∧
    (activated s = false → activated (tryActivate s0) = true →
      ∃ t, lookupLeaf (tryActivate s0).members (tryActivate s0).cname = some t ∧
        t.value = (tryActivate s0).f (paramVals (tryActivate s0))) := by
  obtain ⟨hAct, hIff, hNoc, hComp⟩ := hinv
  have hc0 : lookupLeaf s0.members s0.cname = lookupLeaf s.members s.cname := by
    rw [hms, hcn]
    exact lookupLeaf_append_single_ne _ _ _ _ (fun hh => hop hh)
  have hpres : ∀ n, n ≠ name → lookupLeaf s0.members n = lookupLeaf s.members n := by
    intro n hn
    rw [hms]
    exact lookupLeaf_append_single_ne _ _ _ _ (fun hh => hn hh.symm)
  cases hg1 : lookupLeaf s0.members s0.cname with
  | some t0 =>
    rw [tryActivate_skip s0 (.inl (by rw [hg1]; rfl))]
    have hcs : lookupLeaf s.members s.cname = some t0 := by
      rw [← hc0]
      exact hg1
    have hactS : activated s = true := by
      unfold activated
      rw [hcs]
      rfl
    have hall : allParamsBound s = true := by
      rw [← hIff]
      exact hactS
    have hnp : name ∉ s.params := by
      intro hmem
      have := (allParamsBound_iff s).mp hall name hmem
      rw [hb] at this
      exact Bool.noConfusion this
    have hpv : paramVals s0 = paramVals s :=
      paramVals_eq s s0 hps (fun p hp => hpres p (fun hh => hnp (hh ▸ hp)))
    refine ⟨⟨?_, ?_, ?_, ?_⟩, hcn, hps, hf, ?_, ?_⟩
    · intro n l hl
      rw [hms] at hl
      rcases lookupLeaf_append_or _ _ _ _ hl with hl | hl
      · exact hAct n l hl
      · obtain ⟨-, rfl⟩ := lookupLeaf_single name n L l hl
        exact hLact
    · have hact0 : activated s0 = true := by
        unfold activated
        rw [hg1]
        rfl
      have hall0 : allParamsBound s0 = true := by
        unfold allParamsBound
        rw [hps]
        refine List.all_eq_true.mpr (fun p hp => ?_)
        rw [hpres p (fun hh => hnp (hh ▸ hp))]
        exact (allParamsBound_iff s).mp hall p hp
      rw [hact0, hall0]
    · intro _
      rw [hcn, hps]
      exact hNoc hactS
    · intro t' ht'
      rw [hg1] at ht'
      injection ht' with ht'
      subst ht'
      obtain ⟨htv, htp, htlaw, htpar⟩ := hComp t0 hcs
      refine ⟨htv, htp, ?_, ?_⟩
      · rw [hf, hpv]
        exact htlaw
      · intro p hp
        rw [hps] at hp
        obtain ⟨lp, hlp, hrec⟩ := htpar p hp
        refine ⟨lp, ?_, hrec⟩
        rw [hpres p (fun hh => hnp (hh ▸ hp))]
        exact hlp
    · intro _
      unfold computedIdent
      rw [hc0]
    · intro hx _
      rw [hactS] at hx
      exact Bool.noConfusion hx
  | none =>
    have hcsn : lookupLeaf s.members s.cname = none := by
      rw [← hc0]
      exact hg1
    have hactSf : activated s = false := by
      unfold activated
      rw [hcsn]
      rfl
    cases hg2 : (s0.params.all fun p => hasattrB s0 p) with
    | false =>
      rw [tryActivate_skip s0 (.inr (.inl hg2))]
      have hall0 : allParamsBound s0 = false := by
        cases hab : allParamsBound s0 with
        | false => rfl
        | true =>
          have hforall := (allParamsBound_iff s0).mp hab
          have hata : (s0.params.all fun p => hasattrB s0 p) = true :=
            List.all_eq_true.mpr (fun p hp => by
              unfold hasattrB
              rw [hforall p hp]
              rfl)
          rw [hata] at hg2
          exact Bool.noConfusion hg2
      exact bindStill_inv s s0 name L hms hcn hps hf hop hb hLact
        ⟨hAct, hIff, hNoc, hComp⟩ hg1 hall0
    | true =>
      cases hg3 : (s0.params.all fun p => (lookupLeaf s0.members p).isSome) with
      | false =>
        rw [tryActivate_skip s0 (.inr (.inr hg3))]
        exact bindStill_inv s s0 name L hms hcn hps hf hop hb hLact
          ⟨hAct, hIff, hNoc, hComp⟩ hg1 hg3
      | true =>
        rw [tryActivate_activate s0 hg1 hg2 hg3]
        obtain ⟨hFcn, hFps, hFf, ⟨t, hFt, htv, htp, hta, htval⟩, hFpar, hFgen⟩ :=
          activateHOS_spec s0 hg1 hg3
        have hFt' : lookupLeaf (activateHOS s0).members (activateHOS s0).cname
            = some t := hFt
        have hFact : activated (activateHOS s0) = true := by
          unfold activated
          rw [hFt']
          rfl
        have hFall : allParamsBound (activateHOS s0) = true := by
          refine (allParamsBound_iff _).mpr (fun p hp => ?_)
          obtain ⟨lp0, extra, -, hx, -⟩ := hFpar p hp
          rw [hx]
          rfl
        have hcnp : s.cname ∉ s.params := by
          intro hmem
          have hmem0 : s.cname ∈ s0.params := by
            rw [hps]
            exact hmem
          have := List.all_eq_true.mp hg3 s.cname hmem0
          rw [← hcn, hg1] at this
          exact Bool.noConfusion this
        refine ⟨⟨?_, ?_, ?_, ?_⟩, hFcn.trans hcn, hFps.trans hps, hFf.trans hf,
          ?_, ?_⟩
        · intro n l hl
          rcases hFgen n l hl with ⟨l0, extra, hs0l, rfl⟩ | ⟨-, -, -, hact, -⟩
          · rw [hms] at hs0l
            rcases lookupLeaf_append_or _ _ _ _ hs0l with hs0l | hs0l
            · exact hAct n l0 hs0l
            · obtain ⟨-, rfl⟩ := lookupLeaf_single name n L l0 hs0l
              exact hLact
          · exact hact
        · rw [hFact, hFall]
        · intro _
          rw [hFcn, hcn, hFps, hps]
          exact hcnp
        · intro t' ht'
          rw [hFcn] at ht'
          rw [hFt] at ht'
          injection ht' with ht'
          subst ht'
          refine ⟨htv, htp, ?_, ?_⟩
          · rw [htval]
            exact pyEq_refl _
          · intro p hp
            have hp0 : p ∈ s0.params := by
              rw [hFps] at hp
              exact hp
            obtain ⟨lp0, extra, -, hx, hrec⟩ := hFpar p hp0
            exact ⟨{ lp0 with callbacks := lp0.callbacks ++ extra }, hx, hrec⟩
        · intro hx
          rw [hactSf] at hx
          exact Bool.noConfusion hx
        · intro _ _
          refine ⟨t, ?_, ?_⟩
          · rw [hFcn]
            exact hFt
          · exact htval

theorem setattrRaw_inv (s : HOS) (name : String) (v : PyVal) (s2 : HOS)
    (hop : name ≠ s.cname) (hinv : InvHOS s)
    (hstep : setattrRaw s name v = .ok s2) :
    InvHOS s2 ∧ s2.cname = s.cname ∧ s2.params = s.params ∧ s2.f = s.f ∧
    (activated s = true → computedIdent s2 = computedIdent s) ∧
    (activated s = false → activated s2 = true →
      ∃ t, lookupLeaf s2.members s2.cname = some t ∧
        t.value = s2.f (paramVals s2)) := by
  cases hb : lookupLeaf s.members name with
  | some l0 =>
    rw [setattrRaw_bound_error s name v l0 hb] at hstep
    exact Except.noConfusion hstep
  | none =>
    rw [setattrRaw_unbound s name v hb] at hstep
    injection hstep with hstep
    subst hstep
    exact bindStep_inv s _ name _ rfl rfl rfl rfl hop hb
      ((wrapValue_fields s.nextId v).2.2.2.2.1) hinv

theorem foldStep_inv (s S1 : HOS) (cbs : List CCb) (name : String) (l : Leaf CCb)
    (w : PyVal)
    (hl : lookupLeaf s.members name = some l)
    (hS1ms : S1.members = setLeafIn s.members name { l with value := w })
    (hS1cn : S1.cname = s.cname) (hS1ps : S1.params = s.params) (hS1f : S1.f = s.f)
    (hop : name ≠ s.cname)
    (hcbs : cbs = l.callbacks)
    (hinv : InvHOS s) :
    InvHOS (cbs.foldl (fun acc cb => match cb with
      | CCb.recompute => updateComputed acc
      | _ => acc) S1) ∧
    (cbs.foldl (fun acc cb => match cb with
      | CCb.recompute => updateComputed acc
      | _ => acc) S1).cname = s.cname ∧
    (cbs.foldl (fun acc cb => match cb with
      | CCb.recompute => updateComputed acc
      | _ => acc) S1).params = s.params ∧
    (cbs.foldl (fun acc cb => match cb with
      | CCb.recompute => updateComputed acc
      | _ => acc) S1).f = s.f ∧
    (activated s = true → computedIdent (cbs.foldl (fun acc cb => match cb with
      | CCb.recompute => updateComputed acc
      | _ => acc) S1) = computedIdent s) ∧
    (activated s = false → activated (cbs.foldl (fun acc cb => match cb with
      | CCb.recompute => updateComputed acc
      | _ => acc) S1) = true →
      ∃ t, lookupLeaf (cbs.foldl (fun acc cb => match cb with
        | CCb.recompute => updateComputed acc
        | _ => acc) S1).members (cbs.foldl (fun acc cb => match cb with
        | CCb.recompute => updateComputed acc
        | _ => acc) S1).cname = some t ∧
        t.value = (cbs.foldl (fun acc cb => match cb with
          | CCb.recompute => updateComputed acc
          | _ => acc) S1).f (paramVals (cbs.foldl (fun acc cb => match cb with
          | CCb.recompute => updateComputed acc
          | _ => acc) S1))) := by
  obtain ⟨hAct, hIff, hNoc, hComp⟩ := hinv
  have hS1name : lookupLeaf S1.members name = some { l with value := w } := by
    rw [hS1ms]
    exact lookupLeaf_setLeafIn_self s.members name l _ hl
  have hS1ne : ∀ n, n ≠ name → lookupLeaf S1.members n = lookupLeaf s.members n := by
    intro n hn
    rw [hS1ms]
    exact lookupLeaf_setLeafIn_ne s.members name n _ (fun hh => hn hh.symm)
  have hS1iso : ∀ n, (lookupLeaf S1.members n).isSome
      = (lookupLeaf s.members n).isSome := by
    intro n
    by_cases hn : n = name
    · rw [hn, hS1name, hl]
      rfl
    · rw [hS1ne n hn]
  have hS1all : allParamsBound S1 = allParamsBound s := by
    unfold allParamsBound
    rw [hS1ps]
    exact list_all_congr _ _ _ (fun p _ => hS1iso p)
  have hS1actsub : ∀ n l', lookupLeaf S1.members n = some l' → l'.active = true := by
    intro n l' hl'
    by_cases hn : n = name
    · rw [hn, hS1name] at hl'
      injection hl' with hl'
      rw [← hl']
      exact hAct name l hl
    · rw [hS1ne n hn] at hl'
      exact hAct n l' hl'
  cases hcs : lookupLeaf s.members s.cname with
  | none =>
    have hS1c : lookupLeaf S1.members S1.cname = none := by
      rw [hS1cn, hS1ne s.cname (fun hh => hop hh.symm)]
      exact hcs
    rw [foldRecompute_none cbs S1 hS1c]
    have hactS : activated s = false := by
      unfold activated
      rw [hcs]
      rfl
    have hactS1 : activated S1 = false := by
      unfold activated
      rw [hS1c]
      rfl
    refine ⟨⟨hS1actsub, ?_, ?_, ?_⟩, hS1cn, hS1ps, hS1f, ?_, ?_⟩
    · rw [hactS1, hS1all, ← hIff, hactS]
    · intro hx
      rw [hactS1] at hx
      exact Bool.noConfusion hx
    · intro t' ht'
      rw [hS1c] at ht'
      exact Option.noConfusion ht'
    · intro hx
      rw [hactS] at hx
      exact Bool.noConfusion hx
    · intro _ hx
      rw [hactS1] at hx
      exact Bool.noConfusion hx
  | some t =>
    obtain ⟨htv, htp, htlaw, htpar⟩ := hComp t hcs
    have hactS : activated s = true := by
      unfold activated
      rw [hcs]
      rfl
    have hcp : s.cname ∉ s.params := hNoc hactS
    have hS1c : lookupLeaf S1.members S1.cname = some t := by
      rw [hS1cn, hS1ne s.cname (fun hh => hop hh.symm)]
      exact hcs
    have hcpS1 : S1.cname ∉ S1.params := by
      rw [hS1cn, hS1ps]
      exact hcp
    have hstart : CCb.recompute ∈ cbs ∨ pyEq t.value (S1.f (paramVals S1)) = true := by
      by_cases hnp : name ∈ s.params
      · obtain ⟨lp, hlp, hrec⟩ := htpar name hnp
        rw [hl] at hlp
        injection hlp with hlp
        rw [hcbs, hlp]
        exact .inl hrec
      · have hpv : paramVals S1 = paramVals s :=
          paramVals_eq s S1 hS1ps (fun p hp => hS1ne p (fun hh => hnp (hh ▸ hp)))
        right
        rw [hS1f, hpv]
        exact htlaw
    obtain ⟨t2, hl2, hid2, hvf2, hpr2, hac2, hcb2, hlaw2, hne2, hcn2, hps2, hf2⟩ :=
      foldRecompute_spec cbs S1 t hS1c htp hcpS1 hstart
    have hfoldne : ∀ n, n ≠ s.cname →
        lookupLeaf (cbs.foldl (fun acc cb => match cb with
          | CCb.recompute => updateComputed acc
          | _ => acc) S1).members n = lookupLeaf S1.members n :=
      fun n hn => hne2 n (fun hh => hn (hh.trans hS1cn))
    have hl2' : lookupLeaf (cbs.foldl (fun acc cb => match cb with
        | CCb.recompute => updateComputed acc
        | _ => acc) S1).members s.cname = some t2 := by
      rw [← hS1cn]
      exact hl2
    have hfoldact : activated (cbs.foldl (fun acc cb => match cb with
        | CCb.recompute => updateComputed acc
        | _ => acc) S1) = true := by
      unfold activated
      rw [hcn2, hS1cn, hl2']
      rfl
    have hfoldall : allParamsBound (cbs.foldl (fun acc cb => match cb with
        | CCb.recompute => updateComputed acc
        | _ => acc) S1) = true := by
      unfold allParamsBound
      rw [hps2, hS1ps]
      refine List.all_eq_true.mpr (fun p hp => ?_)
      have hpn : p ≠ s.cname := fun hh => hcp (hh ▸ hp)
      rw [hfoldne p hpn, hS1iso p]
      exact (allParamsBound_iff s).mp (by rw [← hIff]; exact hactS) p hp
    have hpvfold : paramVals (cbs.foldl (fun acc cb => match cb with
        | CCb.recompute => updateComputed acc
        | _ => acc) S1) = paramVals S1 := by
      refine paramVals_eq S1 _ hps2 (fun p hp => ?_)
      have hpn : p ≠ S1.cname := fun hh => hcpS1 (hh ▸ hp)
      exact hne2 p hpn
    refine ⟨⟨?_, ?_, ?_, ?_⟩, hcn2.trans hS1cn, hps2.trans hS1ps, hf2.trans hS1f,
      ?_, ?_⟩
    · intro n l' hl'
      by_cases hn : n = s.cname
      · rw [hn, hl2'] at hl'
        injection hl' with hl'
        rw [← hl', hac2]
        exact hAct s.cname t hcs
      · rw [hfoldne n hn] at hl'
        exact hS1actsub n l' hl'
    · rw [hfoldact, hfoldall]
    · intro _
      rw [hcn2, hS1cn, hps2, hS1ps]
      exact hcp
    · intro t' ht'
      rw [hcn2, hS1cn, hl2'] at ht'
      injection ht' with ht'
      subst ht'
      refine ⟨hvf2.trans htv, hpr2.trans htp, ?_, ?_⟩
      · rw [hf2, hpvfold]
        exact hlaw2
      · intro p hp
        have hp' : p ∈ s.params := by
          rw [← hS1ps, ← hps2]
          exact hp
        by_cases hpn2 : p = name
        · rw [hpn2] at hp' ⊢
          refine ⟨{ l with value := w }, ?_, ?_⟩
          · rw [hfoldne name hop, hS1name]
          · obtain ⟨lp, hlp, hrec⟩ := htpar name hp'
            rw [hl] at hlp
            injection hlp with hlp
            show CCb.recompute ∈ l.callbacks
            rw [hlp]
            exact hrec
        · have hpn : p ≠ s.cname := fun hh => hcp (hh ▸ hp')
          obtain ⟨lp, hlp, hrec⟩ := htpar p hp'
          refine ⟨lp, ?_, hrec⟩
          rw [hfoldne p hpn, hS1ne p hpn2]
          exact hlp
    · intro _
      unfold computedIdent
      rw [hcn2, hS1cn, hl2', hcs]
      simp [hid2]
    · intro hx _
      rw [hactS] at hx
      exact Bool.noConfusion hx

theorem setMemberValue_inv (s : HOS) (name : String) (v : PyVal) (s2 : HOS)
    (hop : name ≠ s.cname) (hinv : InvHOS s)
    (hstep : setMemberValue s name v = .ok s2) :
    InvHOS s2 ∧ s2.cname = s.cname ∧ s2.params = s.params ∧ s2.f = s.f ∧
    (activated s = true → computedIdent s2 = computedIdent s) ∧
    (activated s = false → activated s2 = true →
      ∃ t, lookupLeaf s2.members s2.cname = some t ∧
        t.value = s2.f (paramVals s2)) := by
  unfold setMemberValue at hstep
  cases hl : lookupLeaf s.members name with
  | none =>
    rw [hl] at hstep
    exact Except.noConfusion hstep
  | some l =>
    rw [hl] at hstep
    injection hstep with hstep
    cases hcnd : (l.verify && pyEq (applyPrecision l v) l.value) with
    | true =>
      have hr : leafSet l v = (l, []) := by
        simp only [leafSet]
        rw [hcnd]
        rfl
      have hs2 : s2 = s := by
        rw [← hstep, hr]
        simp only []
        rw [List.foldl_nil, setLeafIn_lookup_eq s.members name l hl]
      subst hs2
      refine ⟨hinv, rfl, rfl, rfl, fun _ => rfl, fun hf1 ht1 => ?_⟩
      rw [hf1] at ht1
      exact Bool.noConfusion ht1
    | false =>
      have hr : leafSet l v = ({ l with value := applyPrecision l v }, l.callbacks) := by
        simp only [leafSet]
        rw [hcnd, hinv.1 name l hl]
        rfl
      rw [hr] at hstep
      simp only [] at hstep
      subst hstep
      exact foldStep_inv s _ l.callbacks name l (applyPrecision l v) hl rfl rfl rfl
        rfl hop rfl hinv

theorem stepHOS_inv (s : HOS) (op : HOp) (s2 : HOS)
    (hop : hopName op ≠ s.cname) (hinv : InvHOS s)
    (hstep : stepHOS s op = .ok s2) :
    InvHOS s2 ∧ s2.cname = s.cname ∧ s2.params = s.params ∧ s2.f = s.f ∧
    (activated s = true → computedIdent s2 = computedIdent s) ∧
    (activated s = false → activated s2 = true →
      ∃ t, lookupLeaf s2.members s2.cname = some t ∧
        t.value = s2.f (paramVals s2)) := by
  cases op with
  | bind n v => exact setattrRaw_inv s n v s2 hop hinv hstep
  | setVal n v => exact setMemberValue_inv s n v s2 hop hinv hstep

theorem runHOS_cons_ok (s : HOS) (op : HOp) (ops : List HOp) (s2 : HOS)
    (h : stepHOS s op = .ok s2) :
    runHOS s (op :: ops) = runHOS s2 ops := by
  conv_lhs => unfold runHOS
  rw [h]

theorem runHOS_cons_error (s : HOS) (op : HOp) (ops : List HOp) (e : Err)
    (h : stepHOS s op = .error e) :
    runHOS s (op :: ops) = .error e := by
  unfold runHOS
  rw [h]

theorem runHOS_append (s : HOS) (ops1 ops2 : List HOp) (sN : HOS)
    (h : runHOS s (ops1 ++ ops2) = .ok sN) :
    ∃ sM, runHOS s ops1 = .ok sM ∧ runHOS sM ops2 = .ok sN := by
  induction ops1 generalizing s with
  | nil => exact ⟨s, rfl, h⟩
  | cons op rest ih =>
    rw [List.cons_append] at h
    cases hst : stepHOS s op with
    | ok sx =>
      rw [runHOS_cons_ok s op (rest ++ ops2) sx hst] at h
      rw [runHOS_cons_ok s op rest sx hst]
      exact ih sx h
    | error e =>
      rw [runHOS_cons_error s op (rest ++ ops2) e hst] at h
      exact Except.noConfusion h

theorem initHOS_inv (cname : String) (params : List String)
    (f : List PyVal → PyVal) (hps : params ≠ []) :
    InvHOS (initHOS cname params f) := by
  refine ⟨?_, ?_, ?_, ?_⟩
  · intro n l hl
    exact Option.noConfusion hl
  · cases params with
    | nil => exact absurd rfl hps
    | cons p rest => rfl
  · intro hx
    exact Bool.noConfusion hx
  · intro t ht
    exact Option.noConfusion ht

theorem runHOS_inv (s : HOS) (ops : List HOp) (sN : HOS)
    (hops : ∀ op, op ∈ ops → hopName op ≠ s.cname)
    (hinv : InvHOS s) (hrun : runHOS s ops = .ok sN) :
    InvHOS sN ∧ sN.cname = s.cname ∧ sN.params = s.params ∧ sN.f = s.f ∧
    (activated s = true → computedIdent sN = computedIdent s) := by
  induction ops generalizing s with
  | nil =>
    injection hrun with hrun
    subst hrun
    exact ⟨hinv, rfl, rfl, rfl, fun _ => rfl⟩
  | cons op rest ih =>
    cases hst : stepHOS s op with
    | error e =>
      rw [runHOS_cons_error s op rest e hst] at hrun
      exact Except.noConfusion hrun
    | ok sx =>
      rw [runHOS_cons_ok s op rest sx hst] at hrun
      obtain ⟨hinv1, hcn1, hps1, hf1, hid1, hval1⟩ := stepHOS_inv s op sx
        (hops op (List.mem_cons_self op rest)) hinv hst
      have hops' : ∀ o, o ∈ rest → hopName o ≠ sx.cname := by
        intro o ho
        rw [hcn1]
        exact hops o (List.mem_cons_of_mem op ho)
      obtain ⟨hinvN, hcnN, hpsN, hfN, hidN⟩ := ih sx hops' hinv1 hrun
      refine ⟨hinvN, hcnN.trans hcn1, hpsN.trans hps1, hfN.trans hf1, ?_⟩
      intro hact
      have hactx : activated sx = true := by
        have hci := hid1 hact
        unfold activated at hact ⊢
        unfold computedIdent at hci
        cases hx : lookupLeaf sx.members sx.cname with
        | some _ => rfl
        | none =>
          rw [hx] at hci
          cases hy : lookupLeaf s.members s.cname with
          | none =>
            rw [hy] at hact
            exact Bool.noConfusion hact
          | some u =>
            rw [hy] at hci
            exact Option.noConfusion hci
      rw [hidN hactx, hid1 hact]

/-! ### Claims C5 and C8: composite serialization -/

theorem leafSet_same {κ : Type} (l : Leaf κ) (w : PyVal)
    (hw : applyPrecision l w = l.value) : (leafSet l w).1 = l := by
  show (if (l.verify && pyEq (applyPrecision l w) l.value) = true then (l, ([] : List κ))
      else ({ l with value := applyPrecision l w },
        if l.active = true then l.callbacks else [])).1 = l
  split
  · rfl
  · show ({ l with value := applyPrecision l w } : Leaf κ) = l
    rw [hw]

theorem svalToPy_of_serialize {κ : Type} (l : Leaf κ) (v : SVal)
    (h : serializeLeaf l = .ok v) : svalToPy v = l.value := by
  unfold serializeLeaf at h
  split at h <;>
    first
      | (injection h with h2; subst h2; simp_all [svalToPy])
      | injection h

theorem applyPrecision_self {κ : Type} (l : Leaf κ) (hg : gridOk l = true) :
    applyPrecision l l.value = l.value := by
  cases hp : l.precision with
  | none => simp [applyPrecision, hp]
  | some p =>
    cases hv : l.value with
    | float q =>
      unfold gridOk at hg
      rw [hp, hv] at hg
      simp [applyPrecision, hp, hv, beq_iff_eq.mp hg]
    | int n => unfold gridOk at hg; rw [hp, hv] at hg; simp at hg
    | str s => unfold gridOk at hg; rw [hp, hv] at hg; simp at hg
    | bool b => unfold gridOk at hg; rw [hp, hv] at hg; simp at hg
    | obj o => unfold gridOk at hg; rw [hp, hv] at hg; simp at hg

theorem inlineLeafAssign_roundTrip (l : Leaf ℕ) (v : SVal)
    (ha : l.active = true) (hg : gridOk l = true)
    (hser : serializeLeaf l = .ok v) :
    inlineLeafAssign l v = l := by
  unfold inlineLeafAssign
  have hv : svalToPy v = l.value := svalToPy_of_serialize l v hser
  have happ : applyPrecision ({ l with active := false } : Leaf ℕ) (svalToPy v)
      = ({ l with active := false } : Leaf ℕ).value := by
    show applyPrecision l (svalToPy v) = l.value
    rw [hv]
    exact applyPrecision_self l hg
  rw [leafSet_same _ _ happ]
  show ({ l with active := true } : Leaf ℕ) = l
  rw [← ha]

theorem wfComp_parts (c : CompData) (ms : Members)
    (h : wfNode (.comp c ms) = true) :
    c.active = true ∧ c.depth = 0 ∧ c.pending = false ∧
      (memberNames ms).Nodup ∧ wfMembers ms = true := by
  unfold wfNode at h
  simp only [Bool.and_eq_true, beq_iff_eq, Bool.not_eq_true'] at h
  exact ⟨h.1.1.1.1, h.1.1.1.2, h.1.1.2, of_decide_eq_true h.1.2, h.2⟩

theorem wfLeaf_parts (l : Leaf ℕ) (h : wfNode (.leaf l) = true) :
    l.active = true ∧ kindMatches l = true ∧ gridOk l = true := by
  unfold wfNode at h
  simp only [Bool.and_eq_true] at h
  exact ⟨h.1.1, h.1.2, h.2⟩

theorem wfMembers_parts (k : String) (n : Node) (rest : Members)
    (h : wfMembers (.cons k n rest) = true) :
    wfNode n = true ∧ wfMembers rest = true := by
  unfold wfMembers at h
  simpa [Bool.and_eq_true] using h

mutual
theorem serializeNode_wf (n : Node) (h : wfNode n = true) :
    (∃ v, serializeNode n = .ok v) ∨ serializeNode n = .error .unserializable := by
  cases n with
  | leaf l =>
    have hkm : kindMatches l = true := (wfLeaf_parts l h).2.1
    unfold serializeNode
    cases hk : l.kind <;> cases hv : l.value <;>
      simp_all [kindMatches, serializeLeaf]
  | comp c ms =>
    obtain ⟨es, hes⟩ := serializeMembers_wf ms (wfComp_parts c ms h).2.2.2.2
    exact Or.inl ⟨.dict es, by simp [serializeNode, hes, Except.map]⟩

theorem serializeMembers_wf (ms : Members) (h : wfMembers ms = true) :
    ∃ es, serializeMembers ms = .ok es := by
  cases ms with
  | nil => exact ⟨[], rfl⟩
  | cons k n rest =>
    obtain ⟨hn, hr⟩ := wfMembers_parts k n rest h
    obtain ⟨es, hes⟩ := serializeMembers_wf rest hr
    rcases serializeNode_wf n hn with ⟨v, hv⟩ | hun
    · exact ⟨(k, v) :: es, by simp [serializeMembers, hv, hes]⟩
    · exact ⟨es, by simp [serializeMembers, hun, hes]⟩
end

theorem updateMember_self (ms : Members) (k : String) (nd : Node)
    (h : lookupMember ms k = some nd) : updateMember ms k nd = ms := by
  cases ms with
  | nil => rfl
  | cons k0 n0 rest =>
    unfold lookupMember at h
    unfold updateMember
    by_cases hk : k0 = k
    · rw [if_pos hk] at h ⊢
      injection h with h
      rw [h]
    · rw [if_neg hk] at h ⊢
      rw [updateMember_self rest k nd h]

theorem sizeOf_lookupMember (ms : Members) (k : String) (nd : Node)
    (h : lookupMember ms k = some nd) : sizeOf nd < sizeOf ms := by
  cases ms with
  | nil => cases h
  | cons k0 n0 rest =>
    unfold lookupMember at h
    by_cases hk : k0 = k
    · rw [if_pos hk] at h
      injection h with h
      subst h
      simp
      omega
    · rw [if_neg hk] at h
      have := sizeOf_lookupMember rest k nd h
      simp
      omega

theorem wf_of_lookup (ms : Members) (k : String) (nd : Node)
    (hwf : wfMembers ms = true) (h : lookupMember ms k = some nd) :
    wfNode nd = true := by
  cases ms with
  | nil => cases h
  | cons k0 n0 rest =>
    obtain ⟨hn, hr⟩ := wfMembers_parts k0 n0 rest hwf
    unfold lookupMember at h
    by_cases hk : k0 = k
    · rw [if_pos hk] at h
      injection h with h
      subst h
      exact hn
    · rw [if_neg hk] at h
      exact wf_of_lookup rest k nd hr h

theorem serializeMembers_keys (ms : Members) (es : List (String × SVal))
    (hok : serializeMembers ms = .ok es) :
    ∀ kv ∈ es, kv.1 ∈ memberNames ms := by
  cases ms with
  | nil =>
    injection hok with hok
    subst hok
    simp
  | cons k0 n0 rest =>
    cases h1 : serializeNode n0 with
    | ok v0 =>
      cases h2 : serializeMembers rest with
      | ok es0 =>
        simp only [serializeMembers, h1, h2] at hok
        injection hok with hok
        subst hok
        intro kv hkv
        rcases List.mem_cons.mp hkv with rfl | htl
        · simp [memberNames]
        · exact List.mem_cons_of_mem _ (serializeMembers_keys rest es0 h2 kv htl)
      | error e =>
        simp only [serializeMembers, h1, h2] at hok
        injection hok
    | error e =>
      cases e
      case unserializable =>
        simp only [serializeMembers, h1] at hok
        intro kv hkv
        exact List.mem_cons_of_mem _ (serializeMembers_keys rest es hok kv hkv)
      all_goals (simp only [serializeMembers, h1] at hok; injection hok)

theorem serializeMembers_entries (ms : Members) (es : List (String × SVal))
    (hnd : (memberNames ms).Nodup) (hok : serializeMembers ms = .ok es) :
    ∀ k v, (k, v) ∈ es →
      ∃ nd, lookupMember ms k = some nd ∧ serializeNode nd = .ok v := by
  cases ms with
  | nil =>
    injection hok with hok
    subst hok
    simp
  | cons k0 n0 rest =>
    have hnd0 : k0 ∉ memberNames rest := by
      simpa [memberNames] using (List.nodup_cons.mp (by simpa [memberNames] using hnd)).1
    have hndr : (memberNames rest).Nodup :=
      (List.nodup_cons.mp (by simpa [memberNames] using hnd)).2
    cases h1 : serializeNode n0 with
    | ok v0 =>
      cases h2 : serializeMembers rest with
      | ok es0 =>
        simp only [serializeMembers, h1, h2] at hok
        injection hok with hok
        subst hok
        intro k v hkv
        rcases List.mem_cons.mp hkv with heq2 | htl
        · injection heq2 with hk1 hk2
          subst hk1
          subst hk2
          refine ⟨n0, ?_, h1⟩
          unfold lookupMember
          rw [if_pos rfl]
        · have hk : k ≠ k0 := by
            intro hkk
            subst hkk
            exact hnd0 (serializeMembers_keys rest es0 h2 (k, v) htl)
          obtain ⟨nd, hlk, hser⟩ := serializeMembers_entries rest es0 hndr h2 k v htl
          refine ⟨nd, ?_, hser⟩
          unfold lookupMember
          rw [if_neg (fun hh => hk hh.symm)]
          exact hlk
      | error e =>
        simp only [serializeMembers, h1, h2] at hok
        injection hok
    | error e =>
      cases e
      case unserializable =>
        simp only [serializeMembers, h1] at hok
        intro k v hkv
        have hk : k ≠ k0 := by
          intro hkk
          subst hkk
          exact hnd0 (serializeMembers_keys rest es hok (k, v) hkv)
        obtain ⟨nd, hlk, hser⟩ := serializeMembers_entries rest es hndr hok k v hkv
        refine ⟨nd, ?_, hser⟩
        unfold lookupMember
        rw [if_neg (fun hh => hk hh.symm)]
        exact hlk
      all_goals (simp only [serializeMembers, h1] at hok; injection hok)

theorem serializeMembers_complete (ms : Members) (es : List (String × SVal))
    (hok : serializeMembers ms = .ok es) (k : String) (nd : Node) (v : SVal)
    (hlk : lookupMember ms k = some nd) (hser : serializeNode nd = .ok v) :
    (k, v) ∈ es := by
  cases ms with
  | nil => cases hlk
  | cons k0 n0 rest =>
    unfold lookupMember at hlk
    by_cases hk : k0 = k
    · rw [if_pos hk] at hlk
      injection hlk with hlk
      subst hlk
      cases h2 : serializeMembers rest with
      | ok es0 =>
        simp only [serializeMembers, hser, h2] at hok
        injection hok with hok
        subst hok
        subst hk
        simp
      | error e =>
        simp only [serializeMembers, hser, h2] at hok
        injection hok
    · rw [if_neg hk] at hlk
      cases h1 : serializeNode n0 with
      | ok v0 =>
        cases h2 : serializeMembers rest with
        | ok es0 =>
          simp only [serializeMembers, h1, h2] at hok
          injection hok with hok
          subst hok
          exact List.mem_cons_of_mem _
            (serializeMembers_complete rest es0 h2 k nd v hlk hser)
        | error e =>
          simp only [serializeMembers, h1, h2] at hok
          injection hok
      | error e =>
        cases e
        · simp only [serializeMembers, h1] at hok
          injection hok
        · simp only [serializeMembers, h1] at hok
          exact serializeMembers_complete rest es hok k nd v hlk hser
        all_goals (simp only [serializeMembers, h1] at hok; injection hok)

theorem deserializeEntries_fixed (es : List (String × SVal)) (ms : Members)
    (hents : ∀ k v, (k, v) ∈ es →
      ∃ nd, lookupMember ms k = some nd ∧ nodeRoundTrip nd v) :
    ∃ fl, deserializeEntries ms es = .ok (ms, fl) := by
  induction es with
  | nil => exact ⟨false, by simp [deserializeEntries]⟩
  | cons kv rest ih =>
    obtain ⟨k, v⟩ := kv
    obtain ⟨nd, hlk, hrt⟩ := hents k v (by simp)
    cases nd with
    | leaf l =>
      have hassign : inlineLeafAssign l v = l := hrt
      have hupd : updateMember ms k (.leaf (inlineLeafAssign l v)) = ms := by
        rw [hassign]
        exact updateMember_self ms k _ hlk
      obtain ⟨fl, hfl⟩ := ih (fun k2 v2 hm => hents k2 v2 (by simp [hm]))
      refine ⟨fl, ?_⟩
      simp only [deserializeEntries, hlk, hupd, hfl]
    | comp cc cms =>
      have hdn : deserializeNode (.comp cc cms) v = .ok (.comp cc cms, true, 1) := hrt
      have hupd : updateMember ms k (.comp cc cms) = ms := updateMember_self ms k _ hlk
      obtain ⟨fl, hfl⟩ := ih (fun k2 v2 hm => hents k2 v2 (by simp [hm]))
      exact ⟨true || fl, by simp only [deserializeEntries, hlk, hdn, hupd, hfl]⟩

theorem serializeNode_comp_inv (c : CompData) (ms : Members) (v : SVal)
    (hser : serializeNode (.comp c ms) = .ok v) :
    ∃ es, serializeMembers ms = .ok es ∧ v = .dict es := by
  cases h2 : serializeMembers ms with
  | ok es =>
    refine ⟨es, rfl, ?_⟩
    simp only [serializeNode, h2, Except.map] at hser
    injection hser with hser
    exact hser.symm
  | error e =>
    simp only [serializeNode, h2, Except.map] at hser
    injection hser

theorem compRT (c : CompData) (ms : Members)
    (h : wfNode (.comp c ms) = true)
    (es : List (String × SVal)) (hsm : serializeMembers ms = .ok es) :
    deserializeNode (.comp c ms) (.dict es) = .ok (.comp c ms, true, 1) := by
  obtain ⟨hact, hdep, hpen, hnodup, hwfms⟩ := wfComp_parts c ms h
  have hents : ∀ k v2, (k, v2) ∈ es →
      ∃ nd, lookupMember ms k = some nd ∧ nodeRoundTrip nd v2 := by
    intro k v2 hm
    obtain ⟨nd, hlk, hsernd⟩ := serializeMembers_entries ms es hnodup hsm k v2 hm
    have hwfnd := wf_of_lookup ms k nd hwfms hlk
    have hsz := sizeOf_lookupMember ms k nd hlk
    refine ⟨nd, hlk, ?_⟩
    cases nd with
    | leaf l =>
      obtain ⟨ha, hkm, hg⟩ := wfLeaf_parts l hwfnd
      show inlineLeafAssign l v2 = l
      exact inlineLeafAssign_roundTrip l v2 ha hg
        (by simpa [serializeNode] using hsernd)
    | comp cc cms =>
      obtain ⟨es2, hsm2, rfl⟩ := serializeNode_comp_inv cc cms v2 hsernd
      show deserializeNode (.comp cc cms) (.dict es2) = .ok (.comp cc cms, true, 1)
      exact compRT cc cms hwfnd es2 hsm2
  obtain ⟨fl, hfl⟩ := deserializeEntries_fixed es ms hents
  obtain ⟨cbs, act, dep, pen⟩ := c
  simp only at hact hdep hpen
  subst hact
  subst hdep
  subst hpen
  simp only [deserializeNode, hfl]
  cases fl <;> simp
termination_by sizeOf ms
decreasing_by
  simp_wf
  have h2 := hsz
  simp at h2
  omega

theorem nodeRT (n : Node) (h : wfNode n = true) (v : SVal)
    (hser : serializeNode n = .ok v) : nodeRoundTrip n v := by
  cases n with
  | leaf l =>
    obtain ⟨ha, hkm, hg⟩ := wfLeaf_parts l h
    show inlineLeafAssign l v = l
    exact inlineLeafAssign_roundTrip l v ha hg (by simpa [serializeNode] using hser)
  | comp c ms =>
    obtain ⟨es, hsm, rfl⟩ := serializeNode_comp_inv c ms v hser
    show deserializeNode (.comp c ms) (.dict es) = .ok (.comp c ms, true, 1)
    exact compRT c ms h es hsm

/-- C5.  For every well-formed composite whose members are leaves or nested
composites, `composite.deserialize(composite.serialize())` succeeds and
returns the composite *unchanged* — every member keeps its value, no member
is created — and fires exactly one (hence at most one) notification event on
the composite.  (Members whose serialization raises `NotImplementedError`
are omitted from the output and left untouched on input.) -/
theorem claim5_round_trip (c : CompData) (ms : Members)
    (h : wfNode (.comp c ms) = true) :
    ∃ sv, serializeNode (.comp c ms) = .ok sv ∧
      deserializeNode (.comp c ms) sv = .ok (.comp c ms, true, 1) := by
  obtain ⟨es, hsm⟩ := serializeMembers_wf ms (wfComp_parts c ms h).2.2.2.2
  have hser : serializeNode (.comp c ms) = .ok (.dict es) := by
    simp [serializeNode, hsm, Except.map]
  exact ⟨.dict es, hser, nodeRT (.comp c ms) h _ hser⟩

/-- Witness for C5: the concrete composite `exTree` (an `IntState`, an
unserializable `ObjectState`, a nested composite of a `StringState` and a
`BoolState`, and a precision-1 `FloatState`) round-trips unchanged with
exactly one notification. -/
theorem claim5_round_trip_witness :
    ∃ sv, serializeNode exTree = .ok sv ∧
      deserializeNode exTree sv = .ok (exTree, true, 1) :=
  claim5_round_trip exData exMembers (by
    simp only [wfNode, wfMembers, memberNames, exMembers, exData, exInner]
    decide)

/-- C8.  For every well-formed composite, `serialize()` succeeds and returns
the mapping that contains each public member's name with its `serialize()`
result and omits exactly the members whose serialization fails with the
`UnserializableKind` error (`NotImplementedError`); calling `serialize` on a
leaf of an unserializable kind directly propagates that error instead. -/
theorem claim8_serialize_omission (c : CompData) (ms : Members)
    (h : wfNode (.comp c ms) = true) :
    (∃ es, serializeNode (.comp c ms) = .ok (.dict es) ∧
      ∀ k nd, lookupMember ms k = some nd →
        (∃ sv, serializeNode nd = .ok sv ∧ (k, sv) ∈ es) ∨
        (serializeNode nd = .error Err.unserializable ∧ ∀ sv, (k, sv) ∉ es)) ∧
    (∀ l : Leaf ℕ, l.kind = LeafKind.obj →
      serializeLeaf l = .error Err.unserializable ∧
      serializeNode (.leaf l) = .error Err.unserializable) := by
  constructor
  · obtain ⟨hact, hdep, hpen, hnodup, hwfms⟩ := wfComp_parts c ms h
    obtain ⟨es, hsm⟩ := serializeMembers_wf ms hwfms
    refine ⟨es, by simp [serializeNode, hsm, Except.map], ?_⟩
    intro k nd hlk
    have hwfnd := wf_of_lookup ms k nd hwfms hlk
    rcases serializeNode_wf nd hwfnd with ⟨sv, hsv⟩ | hun
    · exact Or.inl ⟨sv, hsv, serializeMembers_complete ms es hsm k nd sv hlk hsv⟩
    · refine Or.inr ⟨hun, ?_⟩
      intro sv hmem
      obtain ⟨nd2, hlk2, hser2⟩ := serializeMembers_entries ms es hnodup hsm k sv hmem
      rw [hlk] at hlk2
      injection hlk2 with hlk2
      subst hlk2
      rw [hun] at hser2
      injection hser2
  · intro l hk
    have h1 : serializeLeaf l = .error Err.unserializable := by
      cases hv : l.value <;> simp [serializeLeaf, hk, hv]
    exact ⟨h1, by simpa [serializeNode] using h1⟩

/-- Witness for C8: `exTree` serializes successfully (with its
`ObjectState` member omitted), and serializing the `ObjectState` directly
raises the `UnserializableKind` error. -/
theorem claim8_serialize_omission_witness :
    (∃ es, serializeNode exTree = .ok (.dict es)) ∧
    serializeLeaf (mkObjLeaf 1 (.obj 77) : Leaf ℕ) = .error Err.unserializable := by
  obtain ⟨⟨es, hser, hmem⟩, hobj⟩ := claim8_serialize_omission exData exMembers
    (by
      simp only [wfNode, wfMembers, memberNames, exMembers, exData, exInner]
      decide)
  exact ⟨⟨es, hser⟩, (hobj (mkObjLeaf 1 (.obj 77)) rfl).1⟩

/-! ### Claims C4 and C9: member binding -/

theorem leafSet_no_verify {κ : Type} (l : Leaf κ) (u : PyVal)
    (hv : l.verify = false) (hpr : l.precision = none) (hac : l.active = true) :
    leafSet l u = ({ l with value := u }, l.callbacks) := by
  have hap : applyPrecision l u = u := by
    unfold applyPrecision
    rw [hpr]
  unfold leafSet
  rw [hap, hv, hac]
  simp

/-- **C4** (corrected): `HigherOrderState.__setattr__` asserts
`not hasattr(self, name) or callable(getattr(self, name))`, so assigning a
state to a member name that is already bound to a state fails with the
IllegalRebind assertion even when the assigned node is the very same bound
instance; only an unbound name accepts an assignment, after which the name
resolves to a node with the assigned node's identity and value. -/
theorem claim4_rebind_assertion (s : HOS) (name : String) (l l0 : Leaf CCb) :
    (lookupLeaf s.members name = some l0 →
      setattrState s name l = .error .illegalRebind) ∧
    (lookupLeaf s.members name = none →
      ∃ s2 l2, setattrState s name l = .ok s2 ∧
        lookupLeaf s2.members name = some l2 ∧
        l2.ident = l.ident ∧ l2.value = l.value) := by
  constructor
  · exact fun h => setattrState_bound_error s name l l0 h
  · intro h
    rw [setattrState_unbound s name l h]
    obtain ⟨extra, hy⟩ := tryActivate_lookup
      { s with members := s.members ++
          [(name, { l with callbacks := l.callbacks ++ [CCb.forward] })] }
      name _ (lookupLeaf_append_of_none s.members name _ h)
    exact ⟨_, _, rfl, hy, rfl, rfl⟩

/-- C4 counterexample to the claim as stated: `x` is bound to `exBoundLeaf`
(the object attribute access returns), and assigning that very same node
instance back to `x` fails with the IllegalRebind assertion rather than
succeeding. -/
theorem claim4_counterexample :
    lookupLeaf exBound.members "x" = some exBoundLeaf ∧
    setattrState exBound "x" exBoundLeaf = .error .illegalRebind :=
  ⟨rfl, rfl⟩

/-- C4 witness: the bound-name case on a concrete composite with `x` bound
(re-assigning the very same instance), and the unbound-name case on the
empty composite. -/
theorem claim4_rebind_assertion_witness :
    setattrState exBound "x" exBoundLeaf = .error .illegalRebind ∧
    (∃ s2 l2, setattrState exHOS0 "x" (mkIntLeaf 1 5) = .ok s2 ∧
      lookupLeaf s2.members "x" = some l2 ∧
      l2.ident = (mkIntLeaf 1 5 : Leaf CCb).ident ∧
      l2.value = (mkIntLeaf 1 5 : Leaf CCb).value) :=
  ⟨(claim4_rebind_assertion exBound "x" exBoundLeaf exBoundLeaf).1 rfl,
   (claim4_rebind_assertion exHOS0 "x" (mkIntLeaf 1 5) (mkIntLeaf 1 5)).2 rfl⟩

/-- **C9**: a non-`State` value assigned to an unbound member name is
wrapped by the `BASIC_STATE_DICT` row for its runtime type (int→IntState,
float→FloatState, str→StringState, bool→BoolState) and any other value by
the opaque `ObjectState`, whose `verify_change=False` makes every assignment
store the value and notify (no equality suppression) and whose `serialize`
raises. -/
theorem claim9_wrapping (s : HOS) (name : String) (v : PyVal)
    (h : lookupLeaf s.members name = none) :
    ∃ s2 l2, setattrRaw s name v = .ok s2 ∧
      lookupLeaf s2.members name = some l2 ∧
      l2.kind = kindOf v ∧ l2.value = v ∧
      l2.verify = decide (kindOf v ≠ LeafKind.obj) ∧
      (kindOf v = LeafKind.obj →
        (∀ (u : PyVal) (ks : List CCb), leafSet ({ l2 with callbacks := ks } : Leaf CCb) u
            = (({ l2 with callbacks := ks, value := u } : Leaf CCb), ks)) ∧
        serializeLeaf l2 = Except.error Err.unserializable) := by
  obtain ⟨hk, hv, hvf, hpr, hac, hcb⟩ := wrapValue_fields s.nextId v
  rw [setattrRaw_unbound s name v h]
  obtain ⟨extra, hy⟩ := tryActivate_lookup
    { s with
        nextId := s.nextId + 1
        members := s.members ++ [(name,
          { (wrapValue s.nextId v : Leaf CCb) with
            callbacks := (wrapValue s.nextId v : Leaf CCb).callbacks ++ [CCb.forward] })] }
    name _ (lookupLeaf_append_of_none s.members name _ h)
  refine ⟨_, { (wrapValue s.nextId v : Leaf CCb) with
      callbacks := ((wrapValue s.nextId v : Leaf CCb).callbacks ++ [CCb.forward]) ++ extra },
    rfl, hy, hk, hv, hvf, ?_⟩
  intro hobj
  cases v with
  | int n => exact LeafKind.noConfusion hobj
  | float q => exact LeafKind.noConfusion hobj
  | str t => exact LeafKind.noConfusion hobj
  | bool b => exact LeafKind.noConfusion hobj
  | obj w =>
    exact ⟨fun u ks => leafSet_no_verify _ u rfl rfl rfl, rfl⟩

/-- C9 witness: assigning the opaque value `obj 42` to the fresh name `x`
wraps it in an `ObjectState`-kind leaf that stores the value, never
suppresses, and refuses serialization. -/
theorem claim9_wrapping_witness :
    ∃ s2 l2, setattrRaw exHOS0 "x" (.obj 42) = .ok s2 ∧
      lookupLeaf s2.members "x" = some l2 ∧
      l2.kind = kindOf (.obj 42) ∧ l2.value = .obj 42 ∧
      l2.verify = decide (kindOf (.obj 42) ≠ LeafKind.obj) ∧
      (kindOf (.obj 42) = LeafKind.obj →
        (∀ (u : PyVal) (ks : List CCb), leafSet ({ l2 with callbacks := ks } : Leaf CCb) u
            = (({ l2 with callbacks := ks, value := u } : Leaf CCb), ks)) ∧
        serializeLeaf l2 = Except.error Err.unserializable) :=
  claim9_wrapping exHOS0 "x" (.obj 42) rfl

/-- **C1**: for a higher-order state declaring one computed member over a
non-empty parameter list, along any successful run of attribute bindings and
member-value mutations that never target the computed name: at every
reachable prefix state the computed member is initialized exactly when all
of its parameters are bound (it activates exactly once, at the first binding
that completes the parameters); once activated, the node identity bound to
the computed name never changes for the rest of the run; the final computed
value is `==`-equal to the recompute function applied to the current
parameter values; and at the activating step the computed value equals the
recompute function applied to the parameter values exactly. -/
theorem claim1_computed_member (cname : String) (params : List String)
    (f : List PyVal → PyVal) (ops : List HOp) (sN : HOS)
    (hps : params ≠ [])
    (hops : ∀ op, op ∈ ops → hopName op ≠ cname)
    (hrun : runHOS (initHOS cname params f) ops = .ok sN) :
    activated sN = allParamsBound sN ∧
    (∀ pre suf, ops = pre ++ suf →
      ∀ sP, runHOS (initHOS cname params f) pre = .ok sP →
        activated sP = allParamsBound sP ∧
        (activated sP = true → computedIdent sN = computedIdent sP)) ∧
    (∀ t, lookupLeaf sN.members sN.cname = some t →
      pyEq t.value (sN.f (paramVals sN)) = true) ∧
    (∀ pre op suf, ops = pre ++ op :: suf →
      ∀ sP sQ, runHOS (initHOS cname params f) pre = .ok sP →
        stepHOS sP op = .ok sQ →
        activated sP = false → activated sQ = true →
        ∃ t, lookupLeaf sQ.members sQ.cname = some t ∧
          t.value = sQ.f (paramVals sQ)) := by
  have hinv0 : InvHOS (initHOS cname params f) := initHOS_inv cname params f hps
  obtain ⟨hinvN, hcnN, hpsN, hfN, -⟩ := runHOS_inv _ ops sN hops hinv0 hrun
  refine ⟨hinvN.2.1, ?_, ?_, ?_⟩
  · intro pre suf hsplit sP hpre
    subst hsplit
    obtain ⟨sM, hM1, hM2⟩ := runHOS_append _ pre suf sN hrun
    have hPM : sP = sM := by
      rw [hpre] at hM1
      injection hM1
    subst hPM
    obtain ⟨hinvP, hcnP, hpsP, hfP, -⟩ := runHOS_inv _ pre sP
      (fun o ho => hops o (List.mem_append.mpr (.inl ho))) hinv0 hpre
    refine ⟨hinvP.2.1, ?_⟩
    intro hactP
    obtain ⟨-, -, -, -, hid⟩ := runHOS_inv sP suf sN
      (fun o ho => by rw [hcnP]; exact hops o (List.mem_append.mpr (.inr ho)))
      hinvP hM2
    exact hid hactP
  · intro t ht
    exact (hinvN.2.2.2 t ht).2.2.1
  · intro pre op suf hsplit sP sQ hpre hstep hactP hactQ
    subst hsplit
    obtain ⟨hinvP, hcnP, hpsP, hfP, -⟩ := runHOS_inv _ pre sP
      (fun o ho => hops o (List.mem_append.mpr (.inl ho))) hinv0 hpre
    obtain ⟨-, -, -, -, -, hval⟩ := stepHOS_inv sP op sQ
      (by rw [hcnP]; exact hops op (List.mem_append.mpr (.inr (List.mem_cons_self op suf))))
      hinvP hstep
    exact hval hactP hactQ

/-- C1 witness: the run binding `a`, then an unrelated `x`, then `b`
(activating `c` with value `a + b`), then mutating `a`. -/
theorem claim1_computed_member_witness :
    activated exHOSN = allParamsBound exHOSN ∧
    (∀ pre suf, exOps = pre ++ suf →
      ∀ sP, runHOS (initHOS "c" ["a", "b"] sumInts) pre = .ok sP →
        activated sP = allParamsBound sP ∧
        (activated sP = true → computedIdent exHOSN = computedIdent sP)) ∧
    (∀ t, lookupLeaf exHOSN.members exHOSN.cname = some t →
      pyEq t.value (exHOSN.f (paramVals exHOSN)) = true) ∧
    (∀ pre op suf, exOps = pre ++ op :: suf →
      ∀ sP sQ, runHOS (initHOS "c" ["a", "b"] sumInts) pre = .ok sP →
        stepHOS sP op = .ok sQ →
        activated sP = false → activated sQ = true →
        ∃ t, lookupLeaf sQ.members sQ.cname = some t ∧
          t.value = sQ.f (paramVals sQ)) :=
  claim1_computed_member "c" ["a", "b"] sumInts exOps exHOSN (by decide) (by decide)
    rfl

end WidgetState
